import Mathlib

/-! # run-task: a shallow embedding of `cmd/run-task/main.go`

The Go program is a single file.  Its pure helpers (`indexOf`,
`collectVcsOptions`) become Lean functions; the parts of `main` that read the
process environment take what they read from a `World` record; the parts that
can stop the process (`log.Fatalf`, a runtime panic, `os.Exit` inside
`flag.Parse`) return in `Except Abort`.

Go strings are modelled by Lean strings, Go slices by lists, Go machine
integers by `Int` (no arithmetic here can overflow: every integer is an index
into an argument vector or into a timestamp of fewer than forty bytes).
-/

set_option autoImplicit false

namespace RunTask

/-! ## Process termination -/

/-- The run-time panics that the modelled code can raise. -/
inductive Panic where
  /-- Dereference of a nil pointer. -/
  | nilDereference
  /-- Slice bounds out of range: the offending bound and the length. -/
  | sliceBounds (bound : Int) (len : Nat)
  /-- Package flag: the name of a declared flag begins with a minus sign. -/
  | flagBeginsWithMinus (name : String)
  /-- Package flag: the name of a declared flag contains an equals sign. -/
  | flagContainsEquals (name : String)
  /-- Package flag: a flag of that name is already declared. -/
  | flagRedefined (name : String)
  deriving DecidableEq, Repr

/-- The ways a run stops before `main` returns. -/
inductive Abort where
  /-- Function `log.Fatalf`: the message is logged, then `os.Exit(1)`. -/
  | fatal (msg : String)
  /-- An unrecovered run-time panic: the Go runtime exits with status 2. -/
  | panic (p : Panic)
  /-- Function `os.Exit` called by a library with the given status. -/
  | exit (code : Nat)
  deriving DecidableEq, Repr

deriving instance DecidableEq for Except

/-- Result of a step that may stop the process. -/
abbrev Run (α : Type) := Except Abort α

/-! ## Slices -/

/-- Go slice expression `s[:hi]`; the runtime panics unless `0 ≤ hi ≤ len(s)`. -/
def sliceTo {α : Type} (s : List α) (hi : Int) : Run (List α) :=
  if 0 ≤ hi ∧ hi ≤ (s.length : Int) then .ok (s.take hi.toNat)
  else .error (.panic (.sliceBounds hi s.length))

/-- Go slice expression `s[lo:]`; the runtime panics unless `0 ≤ lo ≤ len(s)`. -/
def sliceFrom {α : Type} (s : List α) (lo : Int) : Run (List α) :=
  if 0 ≤ lo ∧ lo ≤ (s.length : Int) then .ok (s.drop lo.toNat)
  else .error (.panic (.sliceBounds lo s.length))

/-! ## `indexOf` (main.go lines 155-162) and the argument split (lines 108-116) -/

/-- The loop of `indexOf`, started at position `i` of the original slice. -/
def indexOfFrom (item : String) : List String → Nat → Int
  | [], _ => -1
  | v :: rest, i => if v = item then (i : Int) else indexOfFrom item rest (i + 1)

/-- Function `indexOf`: index of the first element equal to `item`, or `-1`. -/
def indexOf (slice : List String) (item : String) : Int :=
  indexOfFrom item slice 0

/-- Step 3 of `main`: the pair `(ourArgs, taskArgs)`. -/
def splitArgs (args : List String) : Run (List String × List String) :=
  let i := indexOf args "--"
  if i ≠ -1 then do
    let ourArgs ← sliceTo args i
    let taskArgs ← sliceFrom args (i + 1)
    pure (ourArgs, taskArgs)
  else
    pure (args, [])

/-! ## Platform flags (lines 58-60) and the identity probe (lines 103-106) -/

/-- Package variable `isMacOSX`, as a function of `runtime.GOOS`. -/
def isMacOSX (goos : String) : Bool := goos == "darwin"

/-- Package variable `isPOSIX`, as a function of `runtime.GOOS`. -/
def isPOSIX (goos : String) : Bool := goos == "linux" || goos == "darwin"

/-- Package variable `isWindows`, as a function of `runtime.GOOS`. -/
def isWindows (goos : String) : Bool := goos == "windows"

/-- The fields of `os/user.User`. -/
structure User where
  Uid : String
  Gid : String
  Username : String
  Name : String
  HomeDir : String
  deriving DecidableEq, Repr

/-- Step 2 of `main`.  `currentUser` is the pointer returned by
`user.Current()`, `none` standing for nil (which is what it returns together
with an error); the error itself is discarded by the code.  The field access
`currentUser.Uid` dereferences the pointer. -/
def runningAsRoot (goos : String) (currentUser : Option User) : Run Bool :=
  match currentUser with
  | none => .error (.panic .nilDereference)
  | some u =>
    let uid := u.Uid
    .ok (isPOSIX goos && uid == "0")

/-! ## The structured logger: `printLine` (lines 63-72)

`time.Now().UTC().Format(time.RFC3339Nano)` belongs to the Go standard
library.  It is modelled after package `time`: the layout
`2006-01-02T15:04:05.999999999Z07:00` renders year, month, day, hour, minute
and second zero-padded to 4, 2, 2, 2, 2, 2 digits, then the fractional second
with its trailing zeros removed (and nothing at all when the nanosecond field
is zero), then `Z` for the zero offset of UTC. -/

/-- A time instant, given by the civil fields of its UTC rendering. -/
structure Instant where
  year : Nat
  month : Nat
  day : Nat
  hour : Nat
  minute : Nat
  second : Nat
  nanosecond : Nat
  deriving DecidableEq, Repr

/-- The fields are those of a calendar instant with a four-digit year. -/
def Instant.WellFormed (t : Instant) : Prop :=
  t.year < 10000 ∧ 1 ≤ t.month ∧ t.month ≤ 12 ∧ 1 ≤ t.day ∧ t.day ≤ 31 ∧
  t.hour < 24 ∧ t.minute < 60 ∧ t.second < 60 ∧ t.nanosecond < 1000000000

instance (t : Instant) : Decidable t.WellFormed := by
  unfold Instant.WellFormed; infer_instance

/-- The `w` low-order decimal digits of `x`, most significant first. -/
def lowDigits : Nat → Nat → List Char
  | 0, _ => []
  | w + 1, x => lowDigits w (x / 10) ++ [Nat.digitChar (x % 10)]

/-- Function `appendInt` of package `time` for a non-negative `x`: the decimal
digits of `x`, zero-padded on the left to at least `width` digits. -/
def appendInt (x width : Nat) : List Char :=
  if x < 10 ^ width then lowDigits width x else Nat.toDigits 10 x

/-- Removes the trailing occurrences of `c`. -/
def trimTrailing (c : Char) (b : List Char) : List Char :=
  (b.reverse.dropWhile (fun x => x == c)).reverse

/-- Function `appendNano` of package `time` for the layout element
`.999999999`: nothing for a zero nanosecond field, otherwise the separator and
the nine digits, trailing zeros trimmed (and the separator too, were nothing
left after it). -/
def appendNano (nanosec : Nat) : List Char :=
  if nanosec = 0 then []
  else
    let b := trimTrailing '0' ('.' :: appendInt nanosec 9)
    if b.getLast? = some '.' then b.dropLast else b

/-- The bytes of `t.UTC().Format(time.RFC3339Nano)`. -/
def formatRFC3339Nano (t : Instant) : List Char :=
  appendInt t.year 4 ++ ['-'] ++ appendInt t.month 2 ++ ['-'] ++ appendInt t.day 2 ++ ['T'] ++
  appendInt t.hour 2 ++ [':'] ++ appendInt t.minute 2 ++ [':'] ++ appendInt t.second 2 ++
  appendNano t.nanosecond ++ ['Z']

/-- The scan behind `strings.LastIndex` for a one-byte pattern: `acc` is the
last match seen before position `i`. -/
def lastIndexFrom (c : Char) : List Char → Nat → Int → Int
  | [], _, acc => acc
  | x :: rest, i, acc => lastIndexFrom c rest (i + 1) (if x = c then (i : Int) else acc)

/-- Function `strings.LastIndex(s, c)` for a one-byte pattern `c`: the index of
its last occurrence in `s`, or `-1`. -/
def lastIndex (s : List Char) (c : Char) : Int :=
  lastIndexFrom c s 0 (-1)

/-- The timestamp that `printLine` puts in the line: the rendering `now` of
the clock reading, cut after the fourth byte from the last dot and closed
with `Z` when there is a dot. -/
def printLineStamp (t : Instant) : Run (List Char) :=
  let now := formatRFC3339Nano t
  let dotIndex := lastIndex now '.'
  if dotIndex ≠ -1 then do
    let cut ← sliceTo now (dotIndex + 4)
    pure (cut ++ ['Z'])
  else
    pure now

/-- Function `printLine`, with `t` the reading of `time.Now()`: the text
written to standard output (the parameter called prefix in the source is
`pfx` here). -/
def printLine (t : Instant) (pfx m : String) : Run String := do
  let now ← printLineStamp t
  pure ("[" ++ pfx ++ " " ++ String.mk now ++ "] " ++ m ++ "\n")

/-! ## Go maps

A Go map is modelled by the list of its entries, pairwise distinct in their
keys.  For the repository map the order of the list is the order of the
declaration; a `range` loop does not follow it (the Go specification leaves
the iteration order of a map unspecified), so every loop over a map takes the
order it visits the entries in from the `World`. -/

/-- A Go `map[string]β`: its entries. -/
abbrev GoMap (β : Type) := List (String × β)

/-- The keys of a map. -/
def GoMap.keys {β : Type} (m : GoMap β) : List String := m.map Prod.fst

/-- Index expression `m[k]` in its two-result form. -/
def GoMap.get {β : Type} : GoMap β → String → Option β
  | [], _ => none
  | (k', v') :: rest, k => if k' = k then some v' else GoMap.get rest k

/-- Assignment `m[k] = v`: replaces the entry of `k`, or adds one. -/
def GoMap.set {β : Type} : GoMap β → String → β → GoMap β
  | [], k, v => [(k, v)]
  | (k', v') :: rest, k, v =>
    if k' = k then (k, v) :: rest else (k', v') :: GoMap.set rest k v

/-! ## Package `flag`: declaration of flags

`flag.String` and `flag.Bool` declare a flag on the process-wide set
`flag.CommandLine`.  `FlagSet.Var` panics when the name begins with `-`, when
it contains `=`, and when a flag of that name is already declared. -/

/-- The kind of value a flag holds. -/
inductive FlagKind where
  | string
  | bool
  deriving DecidableEq, Repr

/-- A declared flag: the fields `Name`, `Usage` and `DefValue` of `flag.Flag`
and the kind of its value. -/
structure Flag where
  Name : String
  Usage : String
  DefValue : String
  kind : FlagKind
  deriving DecidableEq, Repr

/-- The table `formal` of `flag.CommandLine`, in order of declaration. -/
abbrev FlagSet := List Flag

/-- The pointer that `flag.String` returns: it points to the variable that
holds the value of the flag so named. -/
structure StringPtr where
  flagName : String
  deriving DecidableEq, Repr

/-- Method `FlagSet.Var`. -/
def flagVar (fs : FlagSet) (f : Flag) : Run FlagSet :=
  if f.Name.data.head? = some '-' then .error (.panic (.flagBeginsWithMinus f.Name))
  else if '=' ∈ f.Name.data then .error (.panic (.flagContainsEquals f.Name))
  else if f.Name ∈ fs.map Flag.Name then .error (.panic (.flagRedefined f.Name))
  else .ok (fs ++ [f])

/-- Function `flag.String(name, value, usage)`. -/
def flagString (fs : FlagSet) (name value usage : String) : Run (FlagSet × StringPtr) := do
  let fs ← flagVar fs ⟨name, usage, value, .string⟩
  pure (fs, ⟨name⟩)

/-- Function `flag.Bool(name, value, usage)`; the pointer is not kept. -/
def flagBool (fs : FlagSet) (name : String) (value : Bool) (usage : String) : Run FlagSet :=
  flagVar fs ⟨name, usage, if value then "true" else "false", .bool⟩

/-! ## `addVcsArguments` (lines 74-79) and `collectVcsOptions` (lines 81-90) -/

/-- What `addVcsArguments` reads and writes: the declared flags and the two
tables it is handed. -/
structure VcsTables where
  flags : FlagSet
  vcsCheckouts : GoMap StringPtr
  vcsSparseProfiles : GoMap StringPtr
  deriving DecidableEq, Repr

/-- Function `addVcsArguments`. -/
def addVcsArguments (st : VcsTables) (project name : String) : Run VcsTables := do
  let checkoutFlagName := project ++ "-checkout"
  let sparseProfileFlagName := project ++ "-sparse-profile"
  let (flags, checkout) ← flagString st.flags checkoutFlagName ""
    ("Directory where " ++ name ++ " checkout should be created")
  let vcsCheckouts := st.vcsCheckouts.set project checkout
  let (flags, sparseProfile) ← flagString flags sparseProfileFlagName ""
    ("Path to sparse profile for " ++ name ++ " checkout")
  let vcsSparseProfiles := st.vcsSparseProfiles.set project sparseProfile
  pure ⟨flags, vcsCheckouts, vcsSparseProfiles⟩

/-- Type `VcsOption`. -/
structure VcsOption where
  Repository : String
  Name : String
  deriving DecidableEq, Repr

/-- Function `collectVcsOptions`. -/
def collectVcsOptions (_user repository name : String) : VcsOption :=
  ⟨repository, name⟩

/-- The loop of lines 134-136 over the entries in the order `visit`. -/
def addAllVcsArguments (st : VcsTables) (visit : List (String × String)) : Run VcsTables :=
  visit.foldlM (fun st e => addVcsArguments st e.1 e.2) st

/-- The loop of lines 141-145 over the entries in the order `visit`. -/
def collectAllVcsOptions (user : String) (visit : List (String × String)) : List VcsOption :=
  visit.foldl (fun vcsOptions e => vcsOptions ++ [collectVcsOptions user e.1 e.2]) []

/-! ## The process environment and `main` (lines 92-153) -/

/-- Constant `exitPurgeCache`. -/
def exitPurgeCache : Nat := 72

/-- Constant `nullRevision`. -/
def nullRevision : String := "0000000000000000000000000000000000000000"

/-- Function `os.Getenv`: the value of the variable, empty when it is not set. -/
def getenv (environ : GoMap String) (key : String) : String :=
  match environ.get key with
  | some value => value
  | none => ""

/-- What `flag.Parse()` finds on the command line. -/
inductive ParseResult where
  /-- Every argument was accepted: the flags that were set, with their values. -/
  | parsed (actual : GoMap String)
  /-- An undeclared `-h` or `-help`: usage is printed, then `os.Exit(0)`. -/
  | help
  /-- Any other error: it is printed with the usage, then `os.Exit(2)`. -/
  | failed (err : String)
  deriving DecidableEq, Repr

/-- The status `flag.CommandLine` (declared with `flag.ExitOnError`) leaves
with, or the flags set. -/
def flagParseOutcome : ParseResult → Run (GoMap String)
  | .parsed actual => .ok actual
  | .help => .error (.exit 0)
  | .failed _ => .error (.exit 2)

/-- The record, on a cache directory, of the owner its first user gave it.
Nothing in `main.go` reads it; it is part of the world a run happens in. -/
structure CacheMarker where
  path : String
  uid : Nat
  gid : Nat
  deriving DecidableEq, Repr

/-- Everything outside the program that a run of `main` depends on. -/
structure World where
  /-- Constant `runtime.GOOS`. -/
  goos : String
  /-- The slice `os.Args[1:]`. -/
  args : List String
  /-- Result of `os.Getwd()`: the directory, or the error. -/
  getwd : Except String String
  /-- Readings of `time.Now()` in the first and second call of `printLine`. -/
  now1 : Instant
  now2 : Instant
  /-- The pointer returned by `user.Current()`; `none` is nil. -/
  currentUser : Option User
  /-- The environment variables of the process. -/
  environ : GoMap String
  /-- Function `json.Unmarshal` into a nil `map[string]string`: the map it
  leaves in the target and the error it returns, if any. -/
  jsonUnmarshal : String → GoMap String × Option String
  /-- The order in which the `n`-th `range` loop of `main` visits a map. -/
  rangeOrder : Nat → GoMap String → List (String × String)
  /-- Function `flag.Parse()` on the declared flags and `os.Args[1:]`. -/
  flagParse : FlagSet → List String → ParseResult
  /-- The ownership markers of the cache directories of the worker. -/
  cacheMarkers : List CacheMarker
  /-- The numeric user and group the task is to run as. -/
  taskUID : Nat
  taskGID : Nat

/-- A `range` loop visits every entry of the map exactly once. -/
def World.RangeLawful (w : World) : Prop :=
  ∀ (n : Nat) (m : GoMap String), (w.rangeOrder n m).Perm m

/-- Step 4 of `main`, lines 119-125: the repository map, from the value of
`REPOSITORIES`.  The error of `json.Unmarshal` is discarded by the code. -/
def loadRepositories (jsonUnmarshal : String → GoMap String × Option String)
    (repositoriesStr : String) : GoMap String :=
  if repositoriesStr = "" then [("vcs", "repository")]
  else (jsonUnmarshal repositoriesStr).1

/-- Lines 127-130: the four fixed flags, declared on the empty flag set. -/
def declareFixedFlags : Run FlagSet := do
  let (flags, _user) ← flagString [] "user" "worker" "user to run as"
  let (flags, _group) ← flagString flags "group" "worker" "group to run as"
  let (flags, _taskCwd) ← flagString flags "task-cwd" "" "directory to run the provided command in"
  flagBool flags "fetch-hgfingerprint" false "hidden help"

/-- The value of `*user` after `flag.Parse()`. -/
def userValue (actual : GoMap String) : String :=
  match actual.get "user" with
  | some value => value
  | none => "worker"

/-- What `main` has computed when it returns. -/
structure MainResult where
  /-- The environment after `os.Setenv`. -/
  environ : GoMap String
  /-- The lines written by `printLine`. -/
  stdout : List String
  runningAsRoot : Bool
  ourArgs : List String
  taskArgs : List String
  repositories : GoMap String
  flags : FlagSet
  vcsCheckouts : GoMap StringPtr
  vcsSparseProfiles : GoMap StringPtr
  vcsOptions : List VcsOption
  deriving DecidableEq, Repr

/-- Function `main`.  The diagnostic `fmt.Println` calls that end it are left
out: they print the values below and three pointers. -/
def main (w : World) : Run MainResult := do
  let args := w.args
  let currentDir ← match w.getwd with
    | .ok dir => pure dir
    | .error err => throw (Abort.fatal ("Failed to get current directory: " ++ err))
  let environ := w.environ.set "TASK_WORKDIR" currentDir
  let line1 ← printLine w.now1 "setup" ("run-task started in " ++ currentDir)
  let line2 ← printLine w.now2 "setup" ("Invoked by command:" ++ " ".intercalate args)
  let asRoot ← runningAsRoot w.goos w.currentUser
  let (ourArgs, taskArgs) ← splitArgs args
  let repositoriesStr := getenv environ "REPOSITORIES"
  let repositories := loadRepositories w.jsonUnmarshal repositoriesStr
  let flags ← declareFixedFlags
  let tables ← addAllVcsArguments ⟨flags, [], []⟩ (w.rangeOrder 0 repositories)
  let actual ← flagParseOutcome (w.flagParse tables.flags args)
  let vcsOptions := collectAllVcsOptions (userValue actual) (w.rangeOrder 1 repositories)
  pure ⟨environ, [line1, line2], asRoot, ourArgs, taskArgs, repositories, tables.flags,
    tables.vcsCheckouts, tables.vcsSparseProfiles, vcsOptions⟩

/-- The exit status of the process for a run of `main`. -/
def exitCode {α : Type} : Run α → Nat
  | .ok _ => 0
  | .error (.fatal _) => 1
  | .error (.panic _) => 2
  | .error (.exit code) => code

/-- The cache-mismatch condition in the words of the specification (section
4.3): some cache directory carries a marker whose recorded UID or GID differs
from the UID or GID the task is to run as.  It is written from the
specification, to be compared with what `main` does. -/
def specCacheMismatch (markers : List CacheMarker) (targetUID targetGID : Nat) : Bool :=
  markers.any (fun c => c.uid != targetUID || c.gid != targetGID)

/-! ## Concrete worlds -/

/-- A worker account. -/
def workerUser : User := ⟨"1000", "1000", "worker", "Worker", "/home/worker"⟩

/-- The superuser account. -/
def rootUser : User := ⟨"0", "0", "root", "root", "/root"⟩

/-- A clock reading with a nine-digit fraction: 2023-01-02T03:04:05.123456789Z. -/
def clockA : Instant := ⟨2023, 1, 2, 3, 4, 5, 123456789⟩

/-- A Linux worker started with flags, `--` and a task command, `REPOSITORIES`
unset, every `range` loop in declaration order, all flags accepted. -/
def worldA : World where
  goos := "linux"
  args := ["--user", "worker", "--", "make", "--", "all"]
  getwd := .ok "/builds/worker"
  now1 := clockA
  now2 := clockA
  currentUser := some workerUser
  environ := [("HOME", "/home/worker")]
  jsonUnmarshal := fun _ => ([], some "unexpected end of JSON input")
  rangeOrder := fun _ m => m
  flagParse := fun _ _ => .parsed [("user", "worker")]
  cacheMarkers := []
  taskUID := 1000
  taskGID := 1000

/-- Scenario B of the specification: as `worldA`, with a cache directory
marked by UID 1000 and a task that is to run as UID 1001. -/
def worldB : World :=
  { worldA with cacheMarkers := [⟨"/builds/worker/checkouts", 1000, 1000⟩], taskUID := 1001 }

/-- A Linux host on which the current user cannot be resolved: as `worldA`,
with `user.Current()` returning nil and an error. -/
def worldNoUser : World :=
  { worldA with currentUser := none }

/-- A clock reading whose fraction renders with two digits:
2023-01-02T03:04:05.12Z. -/
def clockTwoDigits : Instant := ⟨2023, 1, 2, 3, 4, 5, 120000000⟩

/-- A clock reading whose fraction renders with one digit:
2023-01-02T03:04:05.1Z. -/
def clockOneDigit : Instant := ⟨2023, 1, 2, 3, 4, 5, 100000000⟩

/-- A clock reading on a whole second: 2023-01-02T03:04:05Z. -/
def clockWholeSecond : Instant := ⟨2023, 1, 2, 3, 4, 5, 0⟩

/-- A declaration of two repositories, `a` before `b`. -/
def reposAB : GoMap String := [("a", "A"), ("b", "B")]

/-- The text of `REPOSITORIES` that declares `reposAB`. -/
def reposABText : String := "\x7b\"a\": \"A\", \"b\": \"B\"\x7d"

/-- As `worldA`, with `REPOSITORIES` declaring `reposAB`, and with `range`
loops that visit a map from its last declared entry to its first. -/
def worldR : World :=
  { worldA with
    environ := [("HOME", "/home/worker"), ("REPOSITORIES", reposABText)]
    jsonUnmarshal := fun s =>
      if s = reposABText then (reposAB, none) else ([], some "unexpected end of JSON input")
    rangeOrder := fun _ m => m.reverse }

/-- The flag that `addVcsArguments` declares for the checkout directory of
`project` (lines 75 and 77). -/
def checkoutFlag (project name : String) : Flag :=
  ⟨project ++ "-checkout", "Directory where " ++ name ++ " checkout should be created", "",
    .string⟩

/-- The flag that `addVcsArguments` declares for the sparse profile of
`project` (lines 76 and 78). -/
def sparseProfileFlag (project name : String) : Flag :=
  ⟨project ++ "-sparse-profile", "Path to sparse profile for " ++ name ++ " checkout", "",
    .string⟩

/-- The four flags of lines 127-130, as package `flag` records them. -/
def fixedFlags : FlagSet :=
  [⟨"user", "user to run as", "worker", .string⟩,
   ⟨"group", "group to run as", "worker", .string⟩,
   ⟨"task-cwd", "directory to run the provided command in", "", .string⟩,
   ⟨"fetch-hgfingerprint", "hidden help", "false", .bool⟩]

/-- A repository key whose two generated names package `flag` accepts: it is
not empty, does not begin with `-` and contains no `=`. -/
def ValidKey (k : String) : Prop :=
  k.data ≠ [] ∧ k.data.head? ≠ some '-' ∧ '=' ∉ k.data

instance (k : String) : Decidable (ValidKey k) := by
  unfold ValidKey; infer_instance

/-- The state after a call of `addVcsArguments` that returns. -/
def afterAddVcsArguments (st : VcsTables) (project name : String) : VcsTables :=
  ⟨st.flags ++ [checkoutFlag project name, sparseProfileFlag project name],
    st.vcsCheckouts.set project ⟨project ++ "-checkout"⟩,
    st.vcsSparseProfiles.set project ⟨project ++ "-sparse-profile"⟩⟩

/-- The state after a loop of `addVcsArguments` calls that all return. -/
def afterAllVcsArguments (st : VcsTables) (visit : List (String × String)) : VcsTables :=
  visit.foldl (fun s e => afterAddVcsArguments s e.1 e.2) st

/-- A loop of assignments `m[e.key] = g(e.key)` over the visited entries. -/
def GoMap.setAll {β : Type} (g : String → β) (m : GoMap β)
    (visit : List (String × String)) : GoMap β :=
  visit.foldl (fun m e => m.set e.1 (g e.1)) m

/-- The date and time of day in the rendering: `2006-01-02T15:04:05`. -/
def dateTime (t : Instant) : List Char :=
  appendInt t.year 4 ++ ['-'] ++ appendInt t.month 2 ++ ['-'] ++ appendInt t.day 2 ++ ['T'] ++
  appendInt t.hour 2 ++ [':'] ++ appendInt t.minute 2 ++ [':'] ++ appendInt t.second 2

/-- The exit statuses that `main.go` itself can end with. -/
def ownExitCodes : List Nat := [0, 1, 2]

/-! # Theorems -/

/-! ## Shape of a completed run -/

/-- A run of `main` that returns went through every step, and its result is
assembled from what the steps gave. -/
theorem main_ok_steps {w : World} {r : MainResult} (h : main w = .ok r) :
    ∃ (dir line1 line2 : String) (flags : FlagSet) (tables : VcsTables) (actual : GoMap String),
      w.getwd = .ok dir ∧
      printLine w.now1 "setup" ("run-task started in " ++ dir) = .ok line1 ∧
      printLine w.now2 "setup" ("Invoked by command:" ++ " ".intercalate w.args) = .ok line2 ∧
      runningAsRoot w.goos w.currentUser = .ok r.runningAsRoot ∧
      splitArgs w.args = .ok (r.ourArgs, r.taskArgs) ∧
      r.repositories = loadRepositories w.jsonUnmarshal
        (getenv (w.environ.set "TASK_WORKDIR" dir) "REPOSITORIES") ∧
      declareFixedFlags = .ok flags ∧
      addAllVcsArguments ⟨flags, [], []⟩ (w.rangeOrder 0 r.repositories) = .ok tables ∧
      flagParseOutcome (w.flagParse tables.flags w.args) = .ok actual ∧
      r.flags = tables.flags ∧ r.vcsCheckouts = tables.vcsCheckouts ∧
      r.vcsSparseProfiles = tables.vcsSparseProfiles ∧
      r.vcsOptions = collectAllVcsOptions (userValue actual) (w.rangeOrder 1 r.repositories) := by
  unfold main at h
  simp only [bind, Except.bind, pure, Except.pure] at h
  split at h
  next dir hwd =>
    split at h
    next => cases h
    next line1 h1 =>
      split at h
      next => cases h
      next line2 h2 =>
        split at h
        next => cases h
        next asRoot h3 =>
          split at h
          next => cases h
          next pr h4 =>
            split at h
            next => cases h
            next flags h5 =>
              split at h
              next => cases h
              next tables h6 =>
                split at h
                next => cases h
                next actual h7 =>
                  cases h
                  exact ⟨dir, line1, line2, flags, tables, actual, hwd, h1, h2, h3, h4, rfl,
                    h5, h6, h7, rfl, rfl, rfl, rfl⟩
  next err hwd =>
    simp [throw, throwThe, MonadExceptOf.throw] at h

/-! ## C1: the argument split -/

/-- If `item` does not occur, the scan of `indexOf` ends with `-1`. -/
theorem indexOfFrom_of_not_mem (item : String) (l : List String) (i : Nat) (h : item ∉ l) :
    indexOfFrom item l i = -1 := by
  induction l generalizing i with
  | nil => rfl
  | cons v rest ih =>
    have hv : v ≠ item := fun e => h (e ▸ List.mem_cons_self _ _)
    have hr : item ∉ rest := fun m => h (List.mem_cons_of_mem _ m)
    simp only [indexOfFrom, if_neg hv]
    exact ih (i + 1) hr

/-- If `item` occurs, the scan of `indexOf` started at offset `i` returns
`i + k` for the first position `k` that holds it, and the list splits there. -/
theorem indexOfFrom_of_mem (item : String) (l : List String) (i : Nat) (h : item ∈ l) :
    ∃ k : Nat, indexOfFrom item l i = ((i + k : Nat) : Int) ∧ k < l.length ∧
      l[k]? = some item ∧ (∀ j, j < k → l[j]? ≠ some item) ∧
      item ∉ l.take k ∧ l.take k ++ [item] ++ l.drop (k + 1) = l := by
  induction l generalizing i with
  | nil => cases h
  | cons v rest ih =>
    by_cases hv : v = item
    · refine ⟨0, ?_, ?_, ?_, ?_, ?_, ?_⟩
      · simp [indexOfFrom, hv]
      · simp
      · simp [hv]
      · intro j hj; omega
      · simp
      · simp [hv]
    · have hr : item ∈ rest := by
        rcases List.mem_cons.mp h with e | m
        · exact absurd e.symm hv
        · exact m
      obtain ⟨k, hk, hlen, hget, hmin, hnot, hsplit⟩ := ih (i + 1) hr
      refine ⟨k + 1, ?_, ?_, ?_, ?_, ?_, ?_⟩
      · simp only [indexOfFrom, if_neg hv, hk]
        push_cast; ring
      · simpa using hlen
      · simpa using hget
      · intro j hj
        cases j with
        | zero => simpa using hv
        | succ j => simpa using hmin j (by omega)
      · simp only [List.take_succ_cons, List.mem_cons, not_or]
        exact ⟨fun e => hv e.symm, hnot⟩
      · simpa using hsplit

/-- C1.  When `args` contains `"--"`, `indexOf` returns the smallest index `i`
holding it and `main` sets `ourArgs = args[:i]`, `taskArgs = args[i+1:]`
(neither slice expression panics), so that
`ourArgs ++ ["--"] ++ taskArgs = args` and `ourArgs` has no `"--"`; every
argument after the first `"--"` is in `taskArgs` unchanged and in order.  When
`args` has no `"--"`, `indexOf` returns `-1`, `ourArgs = args` and `taskArgs`
is empty.  In every run of `main` that returns, the two values it holds are
the ones `splitArgs` computes from `os.Args[1:]`. -/
theorem splitArgs_separator (args : List String) :
    ("--" ∈ args → ∃ i : Nat,
        indexOf args "--" = (i : Int) ∧ args[i]? = some "--" ∧
        (∀ j, j < i → args[j]? ≠ some "--") ∧
        splitArgs args = .ok (args.take i, args.drop (i + 1)) ∧
        args.take i ++ ["--"] ++ args.drop (i + 1) = args ∧
        "--" ∉ args.take i) ∧
    ("--" ∉ args → indexOf args "--" = -1 ∧ splitArgs args = .ok (args, [])) ∧
    (∀ (w : World) (r : MainResult), w.args = args → main w = .ok r →
        splitArgs args = .ok (r.ourArgs, r.taskArgs)) := by
  refine ⟨?_, ?_, ?_⟩
  · intro h
    obtain ⟨k, hk, hlen, hget, hmin, hnot, hsplit⟩ := indexOfFrom_of_mem "--" args 0 h
    have hidx : indexOf args "--" = (k : Int) := by
      simp only [indexOf, hk, Nat.zero_add]
    refine ⟨k, hidx, hget, hmin, ?_, hsplit, hnot⟩
    have h1 : ((k : Int) ≠ -1) := by omega
    have h2 : (0 ≤ (k : Int) ∧ (k : Int) ≤ (args.length : Int)) := by omega
    have h3 : (0 ≤ (k : Int) + 1 ∧ (k : Int) + 1 ≤ (args.length : Int)) := by omega
    have h4 : ((k : Int) + 1).toNat = k + 1 := by omega
    simp only [splitArgs, hidx, sliceTo, sliceFrom, if_pos h1, if_pos h2, if_pos h3,
      Int.toNat_ofNat, h4, bind, Except.bind, pure, Except.pure]
  · intro h
    have hidx : indexOf args "--" = -1 := indexOfFrom_of_not_mem "--" args 0 h
    refine ⟨hidx, ?_⟩
    simp [splitArgs, hidx, pure, Except.pure]
  · intro w r hw hr
    obtain ⟨_, _, _, _, _, _, _, _, _, _, h5, _⟩ := main_ok_steps hr
    rw [← hw]; exact h5

/-- C1 at `--user worker -- make -- all`: the first `"--"` is at index 2. -/
theorem splitArgs_separator_witness :
    "--" ∈ ["--user", "worker", "--", "make", "--", "all"] ∧
    ∃ i : Nat,
      indexOf ["--user", "worker", "--", "make", "--", "all"] "--" = (i : Int) ∧
      ["--user", "worker", "--", "make", "--", "all"][i]? = some "--" ∧
      (∀ j, j < i → ["--user", "worker", "--", "make", "--", "all"][j]? ≠ some "--") ∧
      splitArgs ["--user", "worker", "--", "make", "--", "all"] =
        .ok (["--user", "worker", "--", "make", "--", "all"].take i,
          ["--user", "worker", "--", "make", "--", "all"].drop (i + 1)) ∧
      ["--user", "worker", "--", "make", "--", "all"].take i ++ ["--"] ++
        ["--user", "worker", "--", "make", "--", "all"].drop (i + 1) =
        ["--user", "worker", "--", "make", "--", "all"] ∧
      "--" ∉ ["--user", "worker", "--", "make", "--", "all"].take i :=
  ⟨by decide, (splitArgs_separator ["--user", "worker", "--", "make", "--", "all"]).1 (by decide)⟩

/-! ## C2 and C3: the privilege flag -/

/-- C2.  For every platform and every resolved user, the privilege flag that
`main` computes is true exactly when `GOOS` is `linux` or `darwin` and the
user ID is the string `"0"`: it is false on Windows whatever the ID, and false
on every platform for the IDs `"00"`, `""` and `"1000"`.  A run of `main` that
returns holds this value for its resolved user. -/
theorem runningAsRoot_iff (goos : String) (u : User) :
    (∃ b : Bool, runningAsRoot goos (some u) = .ok b ∧
      (b = true ↔ (goos = "linux" ∨ goos = "darwin") ∧ u.Uid = "0")) ∧
    runningAsRoot "windows" (some u) = .ok false ∧
    (u.Uid = "00" ∨ u.Uid = "" ∨ u.Uid = "1000" → runningAsRoot goos (some u) = .ok false) ∧
    (∀ (w : World) (r : MainResult), w.goos = goos → w.currentUser = some u →
      main w = .ok r →
      (r.runningAsRoot = true ↔ (goos = "linux" ∨ goos = "darwin") ∧ u.Uid = "0")) := by
  have key : ∀ (g : String) (v : User),
      ((isPOSIX g && v.Uid == "0") = true ↔ (g = "linux" ∨ g = "darwin") ∧ v.Uid = "0") := by
    intro g v
    simp [isPOSIX]
  refine ⟨⟨_, rfl, key goos u⟩, ?_, ?_, ?_⟩
  · have hw : isPOSIX "windows" = false := by decide
    simp [runningAsRoot, hw]
  · intro h
    have hne : u.Uid ≠ "0" := by
      rcases h with h | h | h <;> rw [h] <;> decide
    simp [runningAsRoot, hne]
  · intro w r hg hu hr
    obtain ⟨_, _, _, _, _, _, _, _, _, h4, _⟩ := main_ok_steps hr
    rw [hg, hu] at h4
    have : r.runningAsRoot = (isPOSIX goos && u.Uid == "0") := by
      simp only [runningAsRoot] at h4
      exact (Except.ok.inj h4).symm
    rw [this]; exact key goos u

/-- C2 in `worldA` (Linux, user ID `"1000"`): the run returns and the flag is
false. -/
theorem runningAsRoot_iff_witness :
    ∃ r : MainResult, main worldA = .ok r ∧
      (r.runningAsRoot = true ↔ (("linux" : String) = "linux" ∨ ("linux" : String) = "darwin") ∧
        workerUser.Uid = "0") := by
  have h : ∃ r : MainResult, main worldA = .ok r := by
    have hok : (main worldA).isOk = true := by decide
    cases hm : main worldA with
    | ok r => exact ⟨r, rfl⟩
    | error e => rw [hm] at hok; cases hok
  obtain ⟨r, hr⟩ := h
  exact ⟨r, hr, (runningAsRoot_iff "linux" workerUser).2.2.2 worldA r rfl rfl hr⟩

/-- C3 (the code departs from the claim).  When `user.Current()` returns nil,
the field access `currentUser.Uid` panics on every platform: no privilege flag
is computed, and a run of `main` in `worldNoUser` stops there with the exit
status 2 of an unrecovered panic. -/
theorem runningAsRoot_nil_user_panics :
    (∀ goos : String, runningAsRoot goos none = .error (.panic .nilDereference)) ∧
    main worldNoUser = .error (.panic .nilDereference) ∧
    exitCode (main worldNoUser) = 2 := by
  refine ⟨fun _ => rfl, by decide, by decide⟩

/-! ## C4 and C5: the log line -/

/-- C4 (the code departs from the claim).  With a nine-digit fraction
`printLine` writes the millisecond form, `.123Z`.  When the clock reads
`.120000000` the rendering is `.12Z`, the cut keeps its `Z` and a second one is
added: the line carries `.12ZZ`, not `.120Z`.  On a whole second the rendering
has no dot and the line carries no fraction at all. -/
theorem printLine_two_digit_fraction :
    printLine clockA "setup" "hello" = .ok "[setup 2023-01-02T03:04:05.123Z] hello\n" ∧
    formatRFC3339Nano clockTwoDigits = "2023-01-02T03:04:05.12Z".data ∧
    printLine clockTwoDigits "setup" "hello" = .ok "[setup 2023-01-02T03:04:05.12ZZ] hello\n" ∧
    printLine clockWholeSecond "setup" "hello" = .ok "[setup 2023-01-02T03:04:05Z] hello\n" := by
  refine ⟨by decide, by decide, by decide, by decide⟩

/-- C5 (the code departs from the claim).  When the clock reads `.100000000`
the rendering is `2023-01-02T03:04:05.1Z`, 22 bytes with the dot at index 19;
the slice bound `dotIndex+4 = 23` exceeds the length, `printLine` panics, and
a run of `main` at that instant ends with exit status 2 before anything else
is done. -/
theorem printLine_one_digit_fraction_panics :
    clockOneDigit.WellFormed ∧
    formatRFC3339Nano clockOneDigit = "2023-01-02T03:04:05.1Z".data ∧
    lastIndex (formatRFC3339Nano clockOneDigit) '.' = 19 ∧
    (∀ pfx m : String,
      printLine clockOneDigit pfx m = .error (.panic (.sliceBounds 23 22))) ∧
    exitCode (main { worldA with now1 := clockOneDigit }) = 2 := by
  refine ⟨by decide, by decide, by decide, ?_, by decide⟩
  intro pfx m
  have h : printLineStamp clockOneDigit = .error (.panic (.sliceBounds 23 22)) := by decide
  simp only [printLine, h, bind, Except.bind]

/-! ## Go maps: reading after writing -/

/-- Reading `m[k]` after `m[k'] = v`. -/
theorem GoMap.get_set {β : Type} (m : GoMap β) (k' k : String) (v : β) :
    (m.set k' v).get k = if k' = k then some v else m.get k := by
  induction m with
  | nil => simp [GoMap.set, GoMap.get]
  | cons e rest ih =>
    obtain ⟨k0, v0⟩ := e
    by_cases h0 : k0 = k'
    · subst h0
      by_cases h1 : k0 = k <;> simp [GoMap.set, GoMap.get, h1]
    · by_cases h1 : k0 = k
      · subst h1
        simp [GoMap.set, GoMap.get, h0, Ne.symm h0]
      · simp [GoMap.set, GoMap.get, h0, h1, ih]

/-- The keys after `m[k'] = v`: those of `m`, and `k'`. -/
theorem GoMap.mem_keys_set {β : Type} (m : GoMap β) (k' k : String) (v : β) :
    k ∈ (m.set k' v).keys ↔ k = k' ∨ k ∈ m.keys := by
  induction m with
  | nil => simp [GoMap.set, GoMap.keys]
  | cons e rest ih =>
    obtain ⟨k0, v0⟩ := e
    by_cases h0 : k0 = k'
    · subst h0
      simp [GoMap.set, GoMap.keys]
    · have ih' : k ∈ List.map Prod.fst (GoMap.set rest k' v) ↔ k = k' ∨ k ∈ List.map Prod.fst rest := ih
      simp only [GoMap.set, if_neg h0, GoMap.keys, List.map_cons, List.mem_cons, ih']
      tauto

/-- Assignment keeps the keys of a map pairwise distinct. -/
theorem GoMap.nodup_keys_set {β : Type} (m : GoMap β) (k' : String) (v : β)
    (h : m.keys.Nodup) : (m.set k' v).keys.Nodup := by
  induction m with
  | nil => simp [GoMap.set, GoMap.keys]
  | cons e rest ih =>
    obtain ⟨k0, v0⟩ := e
    have hk0 : k0 ∉ GoMap.keys rest := (List.nodup_cons.mp h).1
    have hrest : (GoMap.keys rest).Nodup := (List.nodup_cons.mp h).2
    by_cases h0 : k0 = k'
    · subst h0
      simpa [GoMap.set, GoMap.keys] using h
    · have hnot : k0 ∉ (GoMap.set rest k' v).keys := by
        rw [GoMap.mem_keys_set]
        exact fun hc => hc.elim h0 hk0
      have := ih hrest
      simp only [GoMap.set, if_neg h0]
      exact List.nodup_cons.mpr ⟨hnot, this⟩

/-- The run in `worldA` returns. -/
theorem main_worldA_ok : ∃ r : MainResult, main worldA = .ok r := by
  have hok : (main worldA).isOk = true := by decide
  cases hm : main worldA with
  | ok r => exact ⟨r, rfl⟩
  | error e => rw [hm] at hok; cases hok

/-- The run in `worldR` returns. -/
theorem main_worldR_ok : ∃ r : MainResult, main worldR = .ok r := by
  have hok : (main worldR).isOk = true := by decide
  cases hm : main worldR with
  | ok r => exact ⟨r, rfl⟩
  | error e => rw [hm] at hok; cases hok

/-- Setting `TASK_WORKDIR` does not change what `main` reads from
`REPOSITORIES`: the repository map of a completed run is loaded from the
value the variable had when the process started. -/
theorem main_repositories_eq {w : World} {r : MainResult} (h : main w = .ok r) :
    r.repositories = loadRepositories w.jsonUnmarshal (getenv w.environ "REPOSITORIES") := by
  obtain ⟨dir, _, _, _, _, _, _, _, _, _, _, hrepo, _⟩ := main_ok_steps h
  have hget : (w.environ.set "TASK_WORKDIR" dir).get "REPOSITORIES" =
      w.environ.get "REPOSITORIES" := by
    rw [GoMap.get_set]
    exact if_neg (by decide)
  rw [hrepo]
  simp only [getenv, hget]

/-- The repository map of the run in `worldR` is `reposAB`. -/
theorem main_worldR_repositories {r : MainResult} (h : main worldR = .ok r) :
    r.repositories = reposAB := by
  rw [main_repositories_eq h]
  decide

/-! ## C6: the repository map -/

/-- C6.  In a run of `main` that returns: when `REPOSITORIES` is unset or
empty the repository map is the one entry `vcs ↦ repository`; when it is a
non-empty text that `json.Unmarshal` decodes without error to the mapping
`m`, the repository map is `m`. -/
theorem repositories_default_or_declared (w : World) (r : MainResult) (h : main w = .ok r) :
    ((w.environ.get "REPOSITORIES" = none ∨ w.environ.get "REPOSITORIES" = some "") →
      r.repositories = [("vcs", "repository")]) ∧
    (∀ (s : String) (m : GoMap String), w.environ.get "REPOSITORIES" = some s → s ≠ "" →
      w.jsonUnmarshal s = (m, none) → r.repositories = m) := by
  have hrepo := main_repositories_eq h
  refine ⟨?_, ?_⟩
  · intro habs
    have hs : getenv w.environ "REPOSITORIES" = "" := by
      rcases habs with e | e <;> simp [getenv, e]
    rw [hrepo, hs]
    rfl
  · intro s m hs hne hm
    have hs' : getenv w.environ "REPOSITORIES" = s := by
      simp [getenv, hs]
    rw [hrepo, hs']
    simp [loadRepositories, hne, hm]

/-- C6 in `worldA` (variable unset) and in `worldR` (variable declaring
`reposAB`). -/
theorem repositories_default_or_declared_witness :
    (∃ r : MainResult, main worldA = .ok r ∧ r.repositories = [("vcs", "repository")]) ∧
    (∃ r : MainResult, main worldR = .ok r ∧ r.repositories = reposAB) := by
  obtain ⟨rA, hA⟩ := main_worldA_ok
  obtain ⟨rR, hR⟩ := main_worldR_ok
  exact ⟨⟨rA, hA, (repositories_default_or_declared worldA rA hA).1 (Or.inl (by decide))⟩,
    ⟨rR, hR, (repositories_default_or_declared worldR rR hR).2 reposABText reposAB
      (by decide) (by decide) (by decide)⟩⟩

/-! ## C7: the collection step -/

/-- The collection loop appends one option per visited entry: its result is
the image of the visiting order. -/
theorem collectAllVcsOptions_eq_map (user : String) (visit : List (String × String)) :
    collectAllVcsOptions user visit =
      visit.map (fun e => collectVcsOptions user e.1 e.2) := by
  have gen : ∀ (l : List (String × String)) (acc : List VcsOption),
      l.foldl (fun vcsOptions e => vcsOptions ++ [collectVcsOptions user e.1 e.2]) acc =
        acc ++ l.map (fun e => collectVcsOptions user e.1 e.2) := by
    intro l
    induction l with
    | nil => intro acc; simp
    | cons e rest ih => intro acc; simp [List.foldl, ih]
  simpa [collectAllVcsOptions] using gen visit []

/-- Entries with distinct keys have distinct options. -/
theorem collectVcsOptions_nodup (user : String) (m : GoMap String) (h : m.keys.Nodup) :
    (m.map (fun e => collectVcsOptions user e.1 e.2)).Nodup := by
  have hrep : (m.map (fun e => collectVcsOptions user e.1 e.2)).map VcsOption.Repository =
      m.keys := by
    simp [GoMap.keys, collectVcsOptions, Function.comp_def]
  exact List.Nodup.of_map VcsOption.Repository (hrep ▸ h)

/-- C7, as the code has it.  For a repository map with distinct keys, in a
run of `main` that returns, the collection step yields one `VcsOption` per
declared repository, in the order in which the second `range` loop visits the
map: the list is the image under `collectVcsOptions` of that visiting order,
it has the length of the map, it is a rearrangement of the images of the
declared entries, it has no repetition, and every declared repository has
its option `VcsOption{Repository: key, Name: name}` in it. -/
theorem vcsOptions_in_visiting_order (w : World) (r : MainResult)
    (hlaw : w.RangeLawful) (h : main w = .ok r) (hkeys : r.repositories.keys.Nodup) :
    ∃ user : String,
      r.vcsOptions = (w.rangeOrder 1 r.repositories).map
        (fun e => collectVcsOptions user e.1 e.2) ∧
      r.vcsOptions.length = r.repositories.length ∧
      r.vcsOptions.Perm (r.repositories.map (fun e => collectVcsOptions user e.1 e.2)) ∧
      r.vcsOptions.Nodup ∧
      (∀ key name : String, (key, name) ∈ r.repositories →
        collectVcsOptions user key name = ⟨key, name⟩ ∧
        (⟨key, name⟩ : VcsOption) ∈ r.vcsOptions) := by
  obtain ⟨_, _, _, _, _, actual, _, _, _, _, _, _, _, _, _, _, _, _, hopt⟩ := main_ok_steps h
  have hperm := hlaw 1 r.repositories
  refine ⟨userValue actual, ?_, ?_, ?_, ?_, ?_⟩
  · rw [hopt, collectAllVcsOptions_eq_map]
  · rw [hopt, collectAllVcsOptions_eq_map, List.length_map]
    exact hperm.length_eq
  · rw [hopt, collectAllVcsOptions_eq_map]
    exact hperm.map _
  · rw [hopt, collectAllVcsOptions_eq_map]
    exact (List.Perm.nodup_iff (hperm.map _)).mpr
      (collectVcsOptions_nodup (userValue actual) r.repositories hkeys)
  · intro key name hmem
    refine ⟨rfl, ?_⟩
    rw [hopt, collectAllVcsOptions_eq_map]
    exact List.mem_map.mpr ⟨(key, name), (hperm.mem_iff).mpr hmem, rfl⟩

/-- The loops of `worldR` visit every entry once. -/
theorem worldR_rangeLawful : worldR.RangeLawful :=
  fun _ m => List.reverse_perm m

/-- C7 in `worldR`: two repositories, visited last to first. -/
theorem vcsOptions_in_visiting_order_witness :
    ∃ (r : MainResult) (user : String), main worldR = .ok r ∧
      r.vcsOptions = (worldR.rangeOrder 1 r.repositories).map
        (fun e => collectVcsOptions user e.1 e.2) ∧
      r.vcsOptions.length = r.repositories.length ∧
      r.vcsOptions.Perm (r.repositories.map (fun e => collectVcsOptions user e.1 e.2)) ∧
      r.vcsOptions.Nodup := by
  obtain ⟨r, hr⟩ := main_worldR_ok
  have hrepo : r.repositories = reposAB := main_worldR_repositories hr
  obtain ⟨user, h1, h2, h3, h4, _⟩ :=
    vcsOptions_in_visiting_order worldR r worldR_rangeLawful hr (by rw [hrepo]; decide)
  exact ⟨r, user, hr, h1, h2, h3, h4⟩

/-- C7 as stated fails.  In `worldR` the declaration is `a` then `b`, with
distinct keys, and the `range` loops visit every entry once, `b` first: the
run returns with the options in the order `b`, `a`, so the first option is not
the one of the first declared repository and the list is not the declaration
order. -/
theorem vcsOptions_declaration_order_fails :
    reposAB.keys.Nodup ∧ worldR.RangeLawful ∧
    ∃ r : MainResult, main worldR = .ok r ∧ r.repositories = reposAB ∧
      r.vcsOptions = [⟨"b", "B"⟩, ⟨"a", "A"⟩] ∧
      r.vcsOptions[0]? ≠ some (collectVcsOptions "worker" "a" "A") ∧
      r.vcsOptions ≠ r.repositories.map (fun e => collectVcsOptions "worker" e.1 e.2) := by
  refine ⟨by decide, fun _ m => List.reverse_perm m, ?_⟩
  obtain ⟨r, hr⟩ := main_worldR_ok
  obtain ⟨_, _, _, _, _, actual, _, _, _, _, _, _, _, _, _, _, _, _, hopt⟩ :=
    main_ok_steps hr
  have hrepo' : r.repositories = reposAB := main_worldR_repositories hr
  have hopt' : r.vcsOptions = [⟨"b", "B"⟩, ⟨"a", "A"⟩] := by
    rw [hopt, collectAllVcsOptions_eq_map, hrepo']
    rfl
  refine ⟨r, hr, hrepo', hopt', ?_, ?_⟩
  · rw [hopt']; decide
  · rw [hopt', hrepo']; decide

/-! ## Generated flag names -/

/-- A common ending can be cancelled. -/
theorem string_append_right_cancel {a b s : String} (h : a ++ s = b ++ s) : a = b := by
  have hd := congrArg String.data h
  simp only [String.data_append] at hd
  exact String.ext (List.append_cancel_right hd)

/-- The ending of a concatenation is an ending of its bytes. -/
theorem string_data_suffix_of_append {a s x : String} (h : a ++ s = x) :
    s.data <:+ x.data :=
  ⟨a.data, by rw [← h, String.data_append]⟩

/-- No checkout name is a sparse-profile name. -/
theorem checkout_ne_sparseProfile (a b : String) :
    a ++ "-checkout" ≠ b ++ "-sparse-profile" := by
  intro h
  have h1 : "-checkout".data <:+ (b ++ "-sparse-profile").data :=
    string_data_suffix_of_append h
  have h2 : "-sparse-profile".data <:+ (b ++ "-sparse-profile").data :=
    string_data_suffix_of_append rfl
  have h3 : "-checkout".data <:+ "-sparse-profile".data :=
    List.suffix_of_suffix_length_le h1 h2 (by decide)
  exact absurd h3 (by decide)

/-- No generated name is the name of a fixed flag. -/
theorem generated_ne_fixed (a n : String) (hn : n ∈ fixedFlags.map Flag.Name) :
    a ++ "-checkout" ≠ n ∧ a ++ "-sparse-profile" ≠ n := by
  have hcases : n = "user" ∨ n = "group" ∨ n = "task-cwd" ∨ n = "fetch-hgfingerprint" := by
    simpa [fixedFlags] using hn
  constructor
  · intro h
    have hs : "-checkout".data <:+ n.data := string_data_suffix_of_append h
    rcases hcases with e | e | e | e <;> rw [e] at hs <;> exact absurd hs (by decide)
  · intro h
    have hs : "-sparse-profile".data <:+ n.data := string_data_suffix_of_append h
    rcases hcases with e | e | e | e <;> rw [e] at hs <;> exact absurd hs (by decide)

/-- Lines 127-130 declare the four fixed flags without a panic. -/
theorem declareFixedFlags_eq : declareFixedFlags = .ok fixedFlags := by decide

/-! ## `flag.String` and `addVcsArguments`, step by step -/

/-- A declaration that returns has appended the flag. -/
theorem flagVar_ok {fs fs' : FlagSet} {f : Flag} (h : flagVar fs f = .ok fs') :
    fs' = fs ++ [f] := by
  unfold flagVar at h
  split_ifs at h
  exact (Except.ok.inj h).symm

/-- A declaration panics only for one of the three reasons of `FlagSet.Var`,
and returns when none of them applies. -/
theorem flagVar_cases (fs : FlagSet) (f : Flag) :
    (f.Name.data.head? ≠ some '-' ∧ '=' ∉ f.Name.data ∧ f.Name ∉ fs.map Flag.Name ∧
      flagVar fs f = .ok (fs ++ [f])) ∨
    (f.Name.data.head? = some '-' ∧ flagVar fs f = .error (.panic (.flagBeginsWithMinus f.Name))) ∨
    ('=' ∈ f.Name.data ∧ flagVar fs f = .error (.panic (.flagContainsEquals f.Name))) ∨
    (f.Name ∈ fs.map Flag.Name ∧ flagVar fs f = .error (.panic (.flagRedefined f.Name))) := by
  unfold flagVar
  by_cases h1 : f.Name.data.head? = some '-'
  · exact Or.inr (Or.inl ⟨h1, by rw [if_pos h1]⟩)
  · by_cases h2 : '=' ∈ f.Name.data
    · exact Or.inr (Or.inr (Or.inl ⟨h2, by rw [if_neg h1, if_pos h2]⟩))
    · by_cases h3 : f.Name ∈ fs.map Flag.Name
      · exact Or.inr (Or.inr (Or.inr ⟨h3, by rw [if_neg h1, if_neg h2, if_pos h3]⟩))
      · exact Or.inl ⟨h1, h2, h3, by rw [if_neg h1, if_neg h2, if_neg h3]⟩

/-- Function `addVcsArguments` is two declarations in sequence, then the two
table assignments. -/
theorem addVcsArguments_eq (st : VcsTables) (project name : String) :
    addVcsArguments st project name =
      (match flagVar st.flags (checkoutFlag project name) with
        | .error e => .error e
        | .ok fs1 =>
          match flagVar fs1 (sparseProfileFlag project name) with
          | .error e => .error e
          | .ok fs2 =>
            .ok ⟨fs2, st.vcsCheckouts.set project ⟨project ++ "-checkout"⟩,
              st.vcsSparseProfiles.set project ⟨project ++ "-sparse-profile"⟩⟩) := by
  unfold addVcsArguments flagString checkoutFlag sparseProfileFlag
  simp only [bind, Except.bind, pure, Except.pure]
  cases flagVar st.flags ⟨project ++ "-checkout",
      "Directory where " ++ name ++ " checkout should be created", "", .string⟩ with
  | error e => rfl
  | ok fs1 =>
    simp only
    cases flagVar fs1 ⟨project ++ "-sparse-profile",
        "Path to sparse profile for " ++ name ++ " checkout", "", .string⟩ with
    | error e => rfl
    | ok fs2 => rfl

/-- A call of `addVcsArguments` that returns has declared the two flags of
`project` and assigned its entry in each table. -/
theorem addVcsArguments_ok {st st' : VcsTables} {project name : String}
    (h : addVcsArguments st project name = .ok st') :
    st' = afterAddVcsArguments st project name := by
  rw [addVcsArguments_eq] at h
  split at h
  next => cases h
  next fs1 h1 =>
    split at h
    next => cases h
    next fs2 h2 =>
      have e1 := flagVar_ok h1
      have e2 := flagVar_ok h2
      subst e1
      subst e2
      have := (Except.ok.inj h).symm
      rw [this]
      simp [afterAddVcsArguments]

/-- A call of `addVcsArguments` stops the process only by a panic. -/
theorem addVcsArguments_error {st : VcsTables} {project name : String} {e : Abort}
    (h : addVcsArguments st project name = .error e) : ∃ q : Panic, e = .panic q := by
  rw [addVcsArguments_eq] at h
  split at h
  next err h1 =>
    have := Except.error.inj h
    subst this
    rcases flagVar_cases st.flags (checkoutFlag project name) with
      ⟨_, _, _, hk⟩ | ⟨_, hk⟩ | ⟨_, hk⟩ | ⟨_, hk⟩ <;> rw [hk] at h1
    · cases h1
    all_goals exact ⟨_, (Except.error.inj h1).symm⟩
  next fs1 h1 =>
    split at h
    next err h2 =>
      have := Except.error.inj h
      subst this
      rcases flagVar_cases fs1 (sparseProfileFlag project name) with
        ⟨_, _, _, hk⟩ | ⟨_, hk⟩ | ⟨_, hk⟩ | ⟨_, hk⟩ <;> rw [hk] at h2
      · cases h2
      all_goals exact ⟨_, (Except.error.inj h2).symm⟩
    next => cases h

/-- The first byte of a generated name is that of a non-empty key. -/
theorem head_generated (k suffix : String) (hk : k.data ≠ []) :
    (k ++ suffix).data.head? = k.data.head? := by
  rw [String.data_append]
  exact List.head?_append_of_ne_nil _ hk

/-- When neither generated name of `project` is declared yet, the call does
not panic on a redefined flag, and it returns if the key is valid. -/
theorem addVcsArguments_fresh (st : VcsTables) (project name : String)
    (hc : project ++ "-checkout" ∉ st.flags.map Flag.Name)
    (hs : project ++ "-sparse-profile" ∉ st.flags.map Flag.Name) :
    (∀ nm : String, addVcsArguments st project name ≠ .error (.panic (.flagRedefined nm))) ∧
    (ValidKey project →
      addVcsArguments st project name = .ok (afterAddVcsArguments st project name)) := by
  have hvalid1 : ValidKey project →
      (checkoutFlag project name).Name.data.head? ≠ some '-' ∧
      '=' ∉ (checkoutFlag project name).Name.data := by
    intro hv
    obtain ⟨hne, hhead, heq⟩ := hv
    refine ⟨?_, ?_⟩
    · show (project ++ "-checkout").data.head? ≠ some '-'
      rw [head_generated _ _ hne]; exact hhead
    · show '=' ∉ (project ++ "-checkout").data
      rw [String.data_append, List.mem_append]
      exact fun hc => hc.elim heq (by decide)
  have hvalid2 : ValidKey project →
      (sparseProfileFlag project name).Name.data.head? ≠ some '-' ∧
      '=' ∉ (sparseProfileFlag project name).Name.data := by
    intro hv
    obtain ⟨hne, hhead, heq⟩ := hv
    refine ⟨?_, ?_⟩
    · show (project ++ "-sparse-profile").data.head? ≠ some '-'
      rw [head_generated _ _ hne]; exact hhead
    · show '=' ∉ (project ++ "-sparse-profile").data
      rw [String.data_append, List.mem_append]
      exact fun hc => hc.elim heq (by decide)
  have hs' : (sparseProfileFlag project name).Name ∉
      (st.flags ++ [checkoutFlag project name]).map Flag.Name := by
    show project ++ "-sparse-profile" ∉ _
    rw [List.map_append, List.mem_append]
    rintro (hm | hm)
    · exact hs hm
    · have : project ++ "-sparse-profile" = project ++ "-checkout" := by
        simpa [checkoutFlag] using hm
      exact checkout_ne_sparseProfile project project this.symm
  rw [addVcsArguments_eq]
  rcases flagVar_cases st.flags (checkoutFlag project name) with
    ⟨_, _, _, hk⟩ | ⟨hb, hk⟩ | ⟨hb, hk⟩ | ⟨hb, hk⟩
  · rw [hk]
    simp only
    rcases flagVar_cases (st.flags ++ [checkoutFlag project name])
        (sparseProfileFlag project name) with
      ⟨_, _, _, hk2⟩ | ⟨hb2, hk2⟩ | ⟨hb2, hk2⟩ | ⟨hb2, hk2⟩
    · rw [hk2]
      refine ⟨(fun nm h => by cases h), fun _ => ?_⟩
      simp [afterAddVcsArguments]
    · rw [hk2]
      exact ⟨(fun nm h => by cases h), fun hv => absurd hb2 (hvalid2 hv).1⟩
    · rw [hk2]
      exact ⟨(fun nm h => by cases h), fun hv => absurd hb2 (hvalid2 hv).2⟩
    · exact absurd hb2 hs'
  · rw [hk]
    exact ⟨(fun nm h => by cases h), fun hv => absurd hb (hvalid1 hv).1⟩
  · rw [hk]
    exact ⟨(fun nm h => by cases h), fun hv => absurd hb (hvalid1 hv).2⟩
  · exact absurd hb hc

/-! ## The registration loop (lines 134-136) -/

/-- The loop makes one call, then goes on with the rest. -/
theorem addAllVcsArguments_cons (st : VcsTables) (e : String × String)
    (rest : List (String × String)) :
    addAllVcsArguments st (e :: rest) =
      (match addVcsArguments st e.1 e.2 with
        | .error err => .error err
        | .ok st1 => addAllVcsArguments st1 rest) := by
  simp only [addAllVcsArguments, List.foldlM_cons, bind, Except.bind]
  cases addVcsArguments st e.1 e.2 <;> rfl

/-- A loop that returns leaves the state of its calls, one after the other. -/
theorem addAllVcsArguments_ok {st st' : VcsTables} {visit : List (String × String)}
    (h : addAllVcsArguments st visit = .ok st') : st' = afterAllVcsArguments st visit := by
  induction visit generalizing st with
  | nil =>
    simp only [addAllVcsArguments, List.foldlM_nil, pure, Except.pure] at h
    exact (Except.ok.inj h).symm
  | cons e rest ih =>
    rw [addAllVcsArguments_cons] at h
    split at h
    next => cases h
    next st1 h1 =>
      have e1 := addVcsArguments_ok h1
      subst e1
      exact ih h

/-- The loop stops the process only by a panic. -/
theorem addAllVcsArguments_error {st : VcsTables} {visit : List (String × String)} {e : Abort}
    (h : addAllVcsArguments st visit = .error e) : ∃ q : Panic, e = .panic q := by
  induction visit generalizing st with
  | nil => simp [addAllVcsArguments, pure, Except.pure] at h
  | cons x rest ih =>
    rw [addAllVcsArguments_cons] at h
    split at h
    next err h1 =>
      have := Except.error.inj h
      subst this
      exact addVcsArguments_error h1
    next st1 h1 => exact ih h

/-- With pairwise distinct keys whose generated names are not declared yet,
the loop never panics on a redefined flag, and it returns if every key is
valid. -/
theorem addAllVcsArguments_fresh (st : VcsTables) (visit : List (String × String))
    (hnodup : (visit.map Prod.fst).Nodup)
    (hfresh : ∀ k ∈ visit.map Prod.fst,
      k ++ "-checkout" ∉ st.flags.map Flag.Name ∧
      k ++ "-sparse-profile" ∉ st.flags.map Flag.Name) :
    (∀ nm : String, addAllVcsArguments st visit ≠ .error (.panic (.flagRedefined nm))) ∧
    ((∀ k ∈ visit.map Prod.fst, ValidKey k) →
      ∃ st' : VcsTables, addAllVcsArguments st visit = .ok st') := by
  induction visit generalizing st with
  | nil =>
    refine ⟨fun nm h => ?_, fun _ => ⟨st, rfl⟩⟩
    simp [addAllVcsArguments, pure, Except.pure] at h
  | cons e rest ih =>
    have hhead : e.1 ∉ rest.map Prod.fst := (List.nodup_cons.mp hnodup).1
    have hrest : (rest.map Prod.fst).Nodup := (List.nodup_cons.mp hnodup).2
    obtain ⟨hc, hs⟩ := hfresh e.1 (by simp)
    obtain ⟨hno, hval⟩ := addVcsArguments_fresh st e.1 e.2 hc hs
    have hfresh' : ∀ k ∈ rest.map Prod.fst,
        k ++ "-checkout" ∉ (afterAddVcsArguments st e.1 e.2).flags.map Flag.Name ∧
        k ++ "-sparse-profile" ∉ (afterAddVcsArguments st e.1 e.2).flags.map Flag.Name := by
      intro k hk
      have hne : k ≠ e.1 := fun heq => hhead (heq ▸ hk)
      obtain ⟨hkc, hks⟩ := hfresh k (List.mem_cons_of_mem _ hk)
      simp only [afterAddVcsArguments, checkoutFlag, sparseProfileFlag, List.map_append,
        List.map_cons, List.map_nil, List.mem_append, List.mem_cons, List.mem_singleton,
        List.not_mem_nil, or_false, not_or]
      refine ⟨⟨hkc, fun h => hne (string_append_right_cancel h),
          checkout_ne_sparseProfile k e.1⟩,
        ⟨hks, fun h => checkout_ne_sparseProfile e.1 k h.symm,
          fun h => hne (string_append_right_cancel h)⟩⟩
    rw [addAllVcsArguments_cons]
    cases h1 : addVcsArguments st e.1 e.2 with
    | error err =>
      refine ⟨fun nm h => hno nm (h1.trans h), fun hv => ?_⟩
      have := hval (hv e.1 (by simp))
      rw [this] at h1
      cases h1
    | ok st1 =>
      have e1 := addVcsArguments_ok h1
      subst e1
      obtain ⟨ih1, ih2⟩ := ih (afterAddVcsArguments st e.1 e.2) hrest hfresh'
      exact ⟨ih1, fun hv => ih2 (fun k hk => hv k (List.mem_cons_of_mem _ hk))⟩

/-- The flags after the loop: those before it and the two of every visited
entry. -/
theorem mem_flags_afterAll (st : VcsTables) (visit : List (String × String)) (f : Flag) :
    f ∈ (afterAllVcsArguments st visit).flags ↔
      f ∈ st.flags ∨ ∃ e ∈ visit, f = checkoutFlag e.1 e.2 ∨ f = sparseProfileFlag e.1 e.2 := by
  induction visit generalizing st with
  | nil => simp [afterAllVcsArguments]
  | cons e rest ih =>
    have hstep : afterAllVcsArguments st (e :: rest) =
        afterAllVcsArguments (afterAddVcsArguments st e.1 e.2) rest := rfl
    rw [hstep, ih]
    have hflags : (afterAddVcsArguments st e.1 e.2).flags =
        st.flags ++ [checkoutFlag e.1 e.2, sparseProfileFlag e.1 e.2] := rfl
    rw [hflags]
    constructor
    · rintro (h | ⟨x, hx, h⟩)
      · rcases List.mem_append.mp h with h | h
        · exact Or.inl h
        · refine Or.inr ⟨e, List.mem_cons_self _ _, ?_⟩
          simpa using h
      · exact Or.inr ⟨x, List.mem_cons_of_mem _ hx, h⟩
    · rintro (h | ⟨x, hx, h⟩)
      · exact Or.inl (List.mem_append_left _ h)
      · rcases List.mem_cons.mp hx with hx | hx
        · subst hx
          refine Or.inl (List.mem_append_right _ ?_)
          simpa using h
        · exact Or.inr ⟨x, hx, h⟩

/-- The loop declares two flags for every visited entry. -/
theorem length_flags_afterAll (st : VcsTables) (visit : List (String × String)) :
    (afterAllVcsArguments st visit).flags.length = st.flags.length + 2 * visit.length := by
  induction visit generalizing st with
  | nil => simp [afterAllVcsArguments]
  | cons e rest ih =>
    have hstep : afterAllVcsArguments st (e :: rest) =
        afterAllVcsArguments (afterAddVcsArguments st e.1 e.2) rest := rfl
    rw [hstep, ih]
    simp only [afterAddVcsArguments, List.length_append, List.length_cons, List.length_nil]
    omega

/-! ## The two tables after the loop -/

/-- The keys after a loop of assignments. -/
theorem GoMap.mem_keys_setAll {β : Type} (g : String → β) (m : GoMap β)
    (visit : List (String × String)) (k : String) :
    k ∈ (GoMap.setAll g m visit).keys ↔ k ∈ m.keys ∨ k ∈ visit.map Prod.fst := by
  induction visit generalizing m with
  | nil => simp [GoMap.setAll]
  | cons e rest ih =>
    have hstep : GoMap.setAll g m (e :: rest) = GoMap.setAll g (m.set e.1 (g e.1)) rest := rfl
    rw [hstep, ih, GoMap.mem_keys_set]
    simp only [List.map_cons, List.mem_cons]
    tauto

/-- A loop of assignments keeps the keys pairwise distinct. -/
theorem GoMap.nodup_keys_setAll {β : Type} (g : String → β) (m : GoMap β)
    (visit : List (String × String)) (h : m.keys.Nodup) :
    (GoMap.setAll g m visit).keys.Nodup := by
  induction visit generalizing m with
  | nil => simpa [GoMap.setAll] using h
  | cons e rest ih =>
    have hstep : GoMap.setAll g m (e :: rest) = GoMap.setAll g (m.set e.1 (g e.1)) rest := rfl
    rw [hstep]
    exact ih _ (GoMap.nodup_keys_set m e.1 (g e.1) h)

/-- A loop of assignments leaves the entries of unvisited keys alone. -/
theorem GoMap.get_setAll_of_not_mem {β : Type} (g : String → β) (m : GoMap β)
    (visit : List (String × String)) (k : String) (hk : k ∉ visit.map Prod.fst) :
    (GoMap.setAll g m visit).get k = m.get k := by
  induction visit generalizing m with
  | nil => rfl
  | cons e rest ih =>
    have hstep : GoMap.setAll g m (e :: rest) = GoMap.setAll g (m.set e.1 (g e.1)) rest := rfl
    have hne : e.1 ≠ k := fun h => hk (by simp [h])
    have hrest : k ∉ rest.map Prod.fst := fun h => hk (by simp [List.mem_map.mp h])
    rw [hstep, ih _ hrest, GoMap.get_set, if_neg hne]

/-- A loop of assignments leaves `g k` at every visited key `k`. -/
theorem GoMap.get_setAll_of_mem {β : Type} (g : String → β) (m : GoMap β)
    (visit : List (String × String)) (k : String) (hk : k ∈ visit.map Prod.fst) :
    (GoMap.setAll g m visit).get k = some (g k) := by
  induction visit generalizing m with
  | nil => cases hk
  | cons e rest ih =>
    have hstep : GoMap.setAll g m (e :: rest) = GoMap.setAll g (m.set e.1 (g e.1)) rest := rfl
    rw [hstep]
    by_cases hrest : k ∈ rest.map Prod.fst
    · exact ih _ hrest
    · have hke : k = e.1 := by
        rcases List.mem_cons.mp (by simpa using hk : k ∈ e.1 :: rest.map Prod.fst) with h | h
        · exact h
        · exact absurd h hrest
      rw [GoMap.get_setAll_of_not_mem g _ rest k hrest, GoMap.get_set, hke, if_pos rfl]

/-- The two tables after the loop are loops of assignments. -/
theorem tables_afterAll (st : VcsTables) (visit : List (String × String)) :
    (afterAllVcsArguments st visit).vcsCheckouts =
      GoMap.setAll (fun k => (⟨k ++ "-checkout"⟩ : StringPtr)) st.vcsCheckouts visit ∧
    (afterAllVcsArguments st visit).vcsSparseProfiles =
      GoMap.setAll (fun k => (⟨k ++ "-sparse-profile"⟩ : StringPtr)) st.vcsSparseProfiles
        visit := by
  induction visit generalizing st with
  | nil => exact ⟨rfl, rfl⟩
  | cons e rest ih =>
    have hstep : afterAllVcsArguments st (e :: rest) =
        afterAllVcsArguments (afterAddVcsArguments st e.1 e.2) rest := rfl
    rw [hstep]
    exact ih (afterAddVcsArguments st e.1 e.2)

/-! ## C8: what the registration loop leaves -/

/-- C8.  In every run of `main` that returns, after `addVcsArguments` has
been called for each entry of the repository map (in whatever order the
`range` loop visits them): the declared flags are the four fixed ones and,
for each repository, exactly the flag named `<key>-checkout` and the flag
named `<key>-sparse-profile`, two per repository, each with the empty string
as default value; `vcsCheckouts` and `vcsSparseProfiles` each have exactly
the key set of the repository map, without repetition, and hold for each key
the pointer to the value of its flag.  A call
`addVcsArguments(_, _, project, name)` that returns has set the entry of
`project` in each table and left the entry of every other key as it was.
The loop returns whenever the keys are pairwise distinct and valid flag-name
stems. -/
theorem addVcsArguments_registers :
    (∀ (w : World) (r : MainResult), w.RangeLawful → main w = .ok r →
      (∀ f : Flag, f ∈ r.flags ↔
        f ∈ fixedFlags ∨
        ∃ e ∈ r.repositories, f = checkoutFlag e.1 e.2 ∨ f = sparseProfileFlag e.1 e.2) ∧
      r.flags.length = 4 + 2 * r.repositories.length ∧
      (∀ k : String, k ∈ r.vcsCheckouts.keys ↔ k ∈ r.repositories.keys) ∧
      (∀ k : String, k ∈ r.vcsSparseProfiles.keys ↔ k ∈ r.repositories.keys) ∧
      r.vcsCheckouts.keys.Nodup ∧ r.vcsSparseProfiles.keys.Nodup ∧
      (∀ k : String, k ∈ r.repositories.keys →
        r.vcsCheckouts.get k = some ⟨k ++ "-checkout"⟩ ∧
        r.vcsSparseProfiles.get k = some ⟨k ++ "-sparse-profile"⟩)) ∧
    (∀ project name : String,
      (checkoutFlag project name).Name = project ++ "-checkout" ∧
      (checkoutFlag project name).DefValue = "" ∧
      (sparseProfileFlag project name).Name = project ++ "-sparse-profile" ∧
      (sparseProfileFlag project name).DefValue = "") ∧
    (∀ (st st' : VcsTables) (project name : String),
      addVcsArguments st project name = .ok st' →
      st'.vcsCheckouts.get project = some ⟨project ++ "-checkout"⟩ ∧
      st'.vcsSparseProfiles.get project = some ⟨project ++ "-sparse-profile"⟩ ∧
      (∀ k : String, k ≠ project →
        st'.vcsCheckouts.get k = st.vcsCheckouts.get k ∧
        st'.vcsSparseProfiles.get k = st.vcsSparseProfiles.get k) ∧
      (∀ k : String, k ∈ st'.vcsCheckouts.keys ↔ k = project ∨ k ∈ st.vcsCheckouts.keys) ∧
      (∀ k : String,
        k ∈ st'.vcsSparseProfiles.keys ↔ k = project ∨ k ∈ st.vcsSparseProfiles.keys) ∧
      (∀ f : Flag, f ∈ st.flags → f ∈ st'.flags)) ∧
    (∀ (repos : GoMap String) (visit : List (String × String)),
      visit.Perm repos → repos.keys.Nodup → (∀ k ∈ repos.keys, ValidKey k) →
      ∃ st' : VcsTables, addAllVcsArguments ⟨fixedFlags, [], []⟩ visit = .ok st') := by
  refine ⟨?_, fun _ _ => ⟨rfl, rfl, rfl, rfl⟩, ?_, ?_⟩
  · intro w r hlaw h
    obtain ⟨_, _, _, flags, tables, _, _, _, _, _, _, _, hfix, hadd, _, hf, hc, hs, _⟩ :=
      main_ok_steps h
    have hflags : flags = fixedFlags := by
      rw [declareFixedFlags_eq] at hfix
      exact (Except.ok.inj hfix).symm
    subst hflags
    have hperm := hlaw 0 r.repositories
    have htab := addAllVcsArguments_ok hadd
    obtain ⟨hco, hsp⟩ := tables_afterAll ⟨fixedFlags, [], []⟩ (w.rangeOrder 0 r.repositories)
    have hkeys : ∀ k : String,
        k ∈ (w.rangeOrder 0 r.repositories).map Prod.fst ↔ k ∈ r.repositories.keys :=
      fun k => (hperm.map Prod.fst).mem_iff
    rw [hf, hc, hs, htab, hco, hsp]
    refine ⟨?_, ?_, ?_, ?_, ?_, ?_, ?_⟩
    · intro f
      rw [mem_flags_afterAll]
      constructor
      · rintro (hm | ⟨e, he, hm⟩)
        · exact Or.inl hm
        · exact Or.inr ⟨e, hperm.mem_iff.mp he, hm⟩
      · rintro (hm | ⟨e, he, hm⟩)
        · exact Or.inl hm
        · exact Or.inr ⟨e, hperm.mem_iff.mpr he, hm⟩
    · rw [length_flags_afterAll, hperm.length_eq]
      rfl
    · intro k
      rw [GoMap.mem_keys_setAll, hkeys]
      simp [GoMap.keys]
    · intro k
      rw [GoMap.mem_keys_setAll, hkeys]
      simp [GoMap.keys]
    · exact GoMap.nodup_keys_setAll _ _ _ (by simp [GoMap.keys])
    · exact GoMap.nodup_keys_setAll _ _ _ (by simp [GoMap.keys])
    · intro k hk
      have hk' := (hkeys k).mpr hk
      exact ⟨GoMap.get_setAll_of_mem _ _ _ k hk', GoMap.get_setAll_of_mem _ _ _ k hk'⟩
  · intro st st' project name h
    have e1 := addVcsArguments_ok h
    subst e1
    simp only [afterAddVcsArguments]
    refine ⟨?_, ?_, ?_, ?_, ?_, ?_⟩
    · rw [GoMap.get_set, if_pos rfl]
    · rw [GoMap.get_set, if_pos rfl]
    · intro k hk
      rw [GoMap.get_set, GoMap.get_set, if_neg (Ne.symm hk), if_neg (Ne.symm hk)]
      exact ⟨rfl, rfl⟩
    · intro k; exact GoMap.mem_keys_set _ _ _ _
    · intro k; exact GoMap.mem_keys_set _ _ _ _
    · intro f hf; exact List.mem_append_left _ hf
  · intro repos visit hperm hnodup hvalid
    have hk : ∀ k : String, k ∈ visit.map Prod.fst ↔ k ∈ repos.keys :=
      fun k => (hperm.map Prod.fst).mem_iff
    have hnd : (visit.map Prod.fst).Nodup :=
      ((hperm.map Prod.fst).nodup_iff).mpr hnodup
    refine (addAllVcsArguments_fresh ⟨fixedFlags, [], []⟩ visit hnd ?_).2
      (fun k hkv => hvalid k ((hk k).mp hkv))
    intro k _
    exact ⟨fun hm => (generated_ne_fixed k _ hm).1 rfl,
      fun hm => (generated_ne_fixed k _ hm).2 rfl⟩

/-- C8 in `worldR`: two repositories `a` and `b`, registered `b` first. -/
theorem addVcsArguments_registers_witness :
    ∃ r : MainResult, main worldR = .ok r ∧
      r.flags.length = 4 + 2 * r.repositories.length ∧
      (∀ k : String, k ∈ r.vcsCheckouts.keys ↔ k ∈ r.repositories.keys) ∧
      (∀ k : String, k ∈ r.vcsSparseProfiles.keys ↔ k ∈ r.repositories.keys) ∧
      (∀ k : String, k ∈ r.repositories.keys →
        r.vcsCheckouts.get k = some ⟨k ++ "-checkout"⟩ ∧
        r.vcsSparseProfiles.get k = some ⟨k ++ "-sparse-profile"⟩) := by
  obtain ⟨r, hr⟩ := main_worldR_ok
  obtain ⟨_, h2, h3, h4, _, _, h7⟩ :=
    addVcsArguments_registers.1 worldR r worldR_rangeLawful hr
  exact ⟨r, hr, h2, h3, h4, h7⟩

/-! ## How a run can stop -/

/-- A slice expression stops the process only by a bounds panic. -/
theorem sliceTo_error {α : Type} {s : List α} {hi : Int} {e : Abort}
    (h : sliceTo s hi = .error e) : ∃ (b : Int) (l : Nat), e = .panic (.sliceBounds b l) := by
  unfold sliceTo at h
  split_ifs at h
  exact ⟨_, _, (Except.error.inj h).symm⟩

/-- A slice expression stops the process only by a bounds panic. -/
theorem sliceFrom_error {α : Type} {s : List α} {lo : Int} {e : Abort}
    (h : sliceFrom s lo = .error e) : ∃ (b : Int) (l : Nat), e = .panic (.sliceBounds b l) := by
  unfold sliceFrom at h
  split_ifs at h
  exact ⟨_, _, (Except.error.inj h).symm⟩

/-- Function `printLine` stops the process only by a bounds panic. -/
theorem printLine_error {t : Instant} {pfx m : String} {e : Abort}
    (h : printLine t pfx m = .error e) :
    ∃ (b : Int) (l : Nat), e = .panic (.sliceBounds b l) := by
  cases hs : printLineStamp t with
  | ok now =>
    rw [printLine, hs] at h
    cases h
  | error err =>
    rw [printLine, hs] at h
    have he : err = e := Except.error.inj h
    subst he
    unfold printLineStamp at hs
    simp only at hs
    generalize formatRFC3339Nano t = now at hs
    generalize lastIndex now '.' = dotIndex at hs
    split_ifs at hs
    · cases h2 : sliceTo now (dotIndex + 4) with
      | error err2 =>
        rw [h2] at hs
        have := Except.error.inj hs
        subst this
        exact sliceTo_error h2
      | ok cut =>
        rw [h2] at hs
        cases hs
    · cases hs

/-- The argument split stops the process only by a bounds panic. -/
theorem splitArgs_error {args : List String} {e : Abort}
    (h : splitArgs args = .error e) :
    ∃ (b : Int) (l : Nat), e = .panic (.sliceBounds b l) := by
  unfold splitArgs at h
  simp only [bind, Except.bind, pure, Except.pure] at h
  split_ifs at h
  split at h
  next err h1 =>
    have := Except.error.inj h
    subst this
    exact sliceTo_error h1
  next v h1 =>
    split at h
    next err h2 =>
      have := Except.error.inj h
      subst this
      exact sliceFrom_error h2
    next => cases h

/-- Every way in which a run of `main` stops before returning. -/
theorem main_error_cases {w : World} {e : Abort} (h : main w = .error e) :
    (∃ msg : String, e = .fatal msg) ∨
    (∃ (b : Int) (l : Nat), e = .panic (.sliceBounds b l)) ∨
    e = .panic .nilDereference ∨
    addAllVcsArguments ⟨fixedFlags, [], []⟩
      (w.rangeOrder 0 (loadRepositories w.jsonUnmarshal (getenv w.environ "REPOSITORIES")))
      = .error e ∨
    e = .exit 0 ∨ e = .exit 2 := by
  unfold main at h
  simp only [bind, Except.bind, pure, Except.pure] at h
  split at h
  next dir hwd =>
    have hget : getenv (w.environ.set "TASK_WORKDIR" dir) "REPOSITORIES" =
        getenv w.environ "REPOSITORIES" := by
      have : (w.environ.set "TASK_WORKDIR" dir).get "REPOSITORIES" =
          w.environ.get "REPOSITORIES" := by
        rw [GoMap.get_set]
        exact if_neg (by decide)
      simp only [getenv, this]
    split at h
    next err h1 =>
      have := Except.error.inj h
      subst this
      exact Or.inr (Or.inl (printLine_error h1))
    next line1 h1 =>
      split at h
      next err h2 =>
        have := Except.error.inj h
        subst this
        exact Or.inr (Or.inl (printLine_error h2))
      next line2 h2 =>
        split at h
        next err h3 =>
          have := Except.error.inj h
          subst this
          refine Or.inr (Or.inr (Or.inl ?_))
          unfold runningAsRoot at h3
          split at h3
          · exact (Except.error.inj h3).symm
          · cases h3
        next asRoot h3 =>
          split at h
          next err h4 =>
            have := Except.error.inj h
            subst this
            exact Or.inr (Or.inl (splitArgs_error h4))
          next pr h4 =>
            split at h
            next err h5 =>
              rw [declareFixedFlags_eq] at h5
              cases h5
            next flags h5 =>
              rw [declareFixedFlags_eq] at h5
              have := Except.ok.inj h5
              subst this
              split at h
              next err h6 =>
                have := Except.error.inj h
                subst this
                rw [hget] at h6
                exact Or.inr (Or.inr (Or.inr (Or.inl h6)))
              next tables h6 =>
                split at h
                next err h7 =>
                  have := Except.error.inj h
                  subst this
                  refine Or.inr (Or.inr (Or.inr (Or.inr ?_)))
                  unfold flagParseOutcome at h7
                  split at h7
                  · cases h7
                  · exact Or.inl (Except.error.inj h7).symm
                  · exact Or.inr (Except.error.inj h7).symm
                next => cases h
  next err hwd =>
    exact Or.inl ⟨_, (Except.error.inj h).symm⟩

/-! ## C9: the cache-purge exit status -/

/-- C9, as the code has it.  The constant `exitPurgeCache` is 72, and `main`
never uses it: whatever the world (cache markers included), a run ends with
status 0 (return, or help requested), 1 (working directory unreadable) or 2
(flag error or panic), never with 72. -/
theorem main_never_exits_purgeCache (w : World) :
    exitPurgeCache = 72 ∧ exitCode (main w) ∈ ownExitCodes ∧
    exitCode (main w) ≠ exitPurgeCache := by
  have hmem : exitCode (main w) ∈ ownExitCodes := by
    cases hm : main w with
    | ok r => simp [exitCode, ownExitCodes]
    | error e =>
      rcases main_error_cases hm with ⟨msg, he⟩ | ⟨b, l, he⟩ | he | hadd | he | he
      · subst he; simp [exitCode, ownExitCodes]
      · subst he; simp [exitCode, ownExitCodes]
      · subst he; simp [exitCode, ownExitCodes]
      · obtain ⟨q, he⟩ := addAllVcsArguments_error hadd
        subst he; simp [exitCode, ownExitCodes]
      · subst he; simp [exitCode, ownExitCodes]
      · subst he; simp [exitCode, ownExitCodes]
  refine ⟨rfl, hmem, ?_⟩
  intro h
  rw [h] at hmem
  exact absurd hmem (by decide)

/-- C9 as stated fails.  In `worldB` a cache directory is marked with UID 1000
and the task is to run as UID 1001, a mismatch in the words of the
specification; the run of `main` returns and the exit status is 0, not 72. -/
theorem cache_mismatch_exit_status_not_72 :
    specCacheMismatch worldB.cacheMarkers worldB.taskUID worldB.taskGID = true ∧
    exitCode (main worldB) = 0 ∧ exitCode (main worldB) ≠ exitPurgeCache := by
  refine ⟨by decide, by decide, by decide⟩

/-! ## C10: the generated flag names never collide -/

/-- C10.  Distinct keys give distinct checkout names and distinct
sparse-profile names; a checkout name never equals a sparse-profile name,
whatever the two keys; no generated name is `user`, `group`, `task-cwd` or
`fetch-hgfingerprint`.  Hence, for a repository map with pairwise distinct
keys visited in any order, the registration loop started from the four fixed
flags never panics with `flag redefined`, and neither does a run of `main`. -/
theorem generated_flag_names_distinct :
    (∀ a b : String, a ≠ b →
      a ++ "-checkout" ≠ b ++ "-checkout" ∧
      a ++ "-sparse-profile" ≠ b ++ "-sparse-profile") ∧
    (∀ a b : String, a ++ "-checkout" ≠ b ++ "-sparse-profile") ∧
    (∀ a n : String, n ∈ ["user", "group", "task-cwd", "fetch-hgfingerprint"] →
      a ++ "-checkout" ≠ n ∧ a ++ "-sparse-profile" ≠ n) ∧
    (declareFixedFlags = .ok fixedFlags ∧
      fixedFlags.map Flag.Name = ["user", "group", "task-cwd", "fetch-hgfingerprint"]) ∧
    (∀ (repos : GoMap String) (visit : List (String × String)),
      visit.Perm repos → repos.keys.Nodup →
      ∀ nm : String,
        addAllVcsArguments ⟨fixedFlags, [], []⟩ visit ≠ .error (.panic (.flagRedefined nm))) ∧
    (∀ w : World, w.RangeLawful →
      (loadRepositories w.jsonUnmarshal (getenv w.environ "REPOSITORIES")).keys.Nodup →
      ∀ nm : String, main w ≠ .error (.panic (.flagRedefined nm))) := by
  have hloop : ∀ (repos : GoMap String) (visit : List (String × String)),
      visit.Perm repos → repos.keys.Nodup →
      ∀ nm : String,
        addAllVcsArguments ⟨fixedFlags, [], []⟩ visit ≠
          .error (.panic (.flagRedefined nm)) := by
    intro repos visit hperm hnodup
    have hnd : (visit.map Prod.fst).Nodup :=
      ((hperm.map Prod.fst).nodup_iff).mpr hnodup
    refine (addAllVcsArguments_fresh ⟨fixedFlags, [], []⟩ visit hnd ?_).1
    intro k _
    exact ⟨fun hm => (generated_ne_fixed k _ hm).1 rfl,
      fun hm => (generated_ne_fixed k _ hm).2 rfl⟩
  refine ⟨?_, checkout_ne_sparseProfile, ?_, ⟨declareFixedFlags_eq, rfl⟩, hloop, ?_⟩
  · intro a b hab
    exact ⟨fun h => hab (string_append_right_cancel h),
      fun h => hab (string_append_right_cancel h)⟩
  · intro a n hn
    exact generated_ne_fixed a n hn
  · intro w hlaw hnodup nm hm
    rcases main_error_cases hm with ⟨msg, he⟩ | ⟨b, l, he⟩ | he | hadd | he | he
    · cases he
    · cases he
    · cases he
    · exact hloop _ _ (hlaw 0 _) hnodup nm hadd
    · cases he
    · cases he

/-- C10 for the keys `a` and `b`, registered `b` first. -/
theorem generated_flag_names_distinct_witness :
    (("a" : String) ++ "-checkout" ≠ "b" ++ "-checkout" ∧
      ("a" : String) ++ "-sparse-profile" ≠ "b" ++ "-sparse-profile") ∧
    (∀ nm : String,
      addAllVcsArguments ⟨fixedFlags, [], []⟩ reposAB.reverse ≠
        .error (.panic (.flagRedefined nm))) ∧
    (∀ nm : String, main worldR ≠ .error (.panic (.flagRedefined nm))) :=
  ⟨generated_flag_names_distinct.1 "a" "b" (by decide),
    generated_flag_names_distinct.2.2.2.2.1 reposAB reposAB.reverse
      (List.reverse_perm reposAB) (by decide),
    generated_flag_names_distinct.2.2.2.2.2 worldR worldR_rangeLawful (by decide)⟩

/-! ## The timestamp of `printLine`, for every instant -/

/-- A decimal digit is not the dot, and it is `0` only for the value zero. -/
theorem digitChar_facts :
    ∀ n, n < 10 → Nat.digitChar n ≠ '.' ∧ (Nat.digitChar n = '0' ↔ n = 0) := by
  decide

/-- There are `w` low digits. -/
theorem length_lowDigits (w x : Nat) : (lowDigits w x).length = w := by
  induction w generalizing x with
  | zero => rfl
  | succ w ih => simp [lowDigits, ih]

/-- No digit is the dot. -/
theorem dot_not_mem_lowDigits (w x : Nat) : '.' ∉ lowDigits w x := by
  induction w generalizing x with
  | zero => simp [lowDigits]
  | succ w ih =>
    simp only [lowDigits, List.mem_append, List.mem_singleton, not_or]
    exact ⟨ih _, fun h => (digitChar_facts (x % 10) (Nat.mod_lt _ (by decide))).1 h.symm⟩

/-- The low `a + b` digits are the low `a` digits of the quotient by `10 ^ b`,
then the low `b` digits. -/
theorem lowDigits_add (a b x : Nat) :
    lowDigits (a + b) x = lowDigits a (x / 10 ^ b) ++ lowDigits b x := by
  induction b generalizing x with
  | zero => simp [lowDigits]
  | succ b ih =>
    have hs : a + (b + 1) = (a + b) + 1 := rfl
    have hd : x / 10 / 10 ^ b = x / 10 ^ (b + 1) := by
      rw [Nat.div_div_eq_div_mul, Nat.pow_succ, Nat.mul_comm]
    rw [hs, lowDigits, ih, lowDigits, List.append_assoc, hd]

/-- The low `b` digits are all `0` exactly when `10 ^ b` divides the number. -/
theorem lowDigits_all_zero (b x : Nat) :
    (∀ c ∈ lowDigits b x, c = '0') ↔ x % 10 ^ b = 0 := by
  induction b generalizing x with
  | zero => simp [lowDigits, Nat.mod_one]
  | succ b ih =>
    have hmod : x % 10 ^ (b + 1) = x % 10 + 10 * (x / 10 % 10 ^ b) := by
      rw [Nat.pow_succ, Nat.mul_comm, Nat.mod_mul]
    have hdig := (digitChar_facts (x % 10) (Nat.mod_lt _ (by decide))).2
    simp only [lowDigits, List.mem_append, List.mem_singleton]
    constructor
    · intro h
      have h1 : x / 10 % 10 ^ b = 0 := (ih (x / 10)).mp (fun c hc => h c (Or.inl hc))
      have h2 : x % 10 = 0 := hdig.mp (h _ (Or.inr rfl))
      rw [hmod, h1, h2]
    · intro h c hc
      rw [hmod] at h
      have h1 : x / 10 % 10 ^ b = 0 := by omega
      have h2 : x % 10 = 0 := by omega
      rcases hc with hc | hc
      · exact (ih (x / 10)).mpr h1 c hc
      · rw [hc]; exact hdig.mpr h2

/-- Dropping a prefix that satisfies `p` stops inside `u` when `u` has an
element that fails `p`. -/
theorem dropWhile_append_of_exists (p : Char → Bool) (u v : List Char)
    (h : ∃ x ∈ u, p x = false) : (u ++ v).dropWhile p = u.dropWhile p ++ v := by
  induction u with
  | nil => obtain ⟨x, hx, _⟩ := h; cases hx
  | cons y rest ih =>
    by_cases hy : p y = true
    · have hrest : ∃ x ∈ rest, p x = false := by
        obtain ⟨x, hx, hpx⟩ := h
        rcases List.mem_cons.mp hx with e | e
        · rw [e, hy] at hpx; cases hpx
        · exact ⟨x, e, hpx⟩
      simp [List.dropWhile, hy, ih hrest]
    · simp [List.dropWhile, hy]

/-- Dropping a prefix that satisfies `p` goes through `u` when all of `u`
satisfies `p`. -/
theorem dropWhile_append_of_all (p : Char → Bool) (u v : List Char)
    (h : ∀ x ∈ u, p x = true) : (u ++ v).dropWhile p = v.dropWhile p := by
  induction u with
  | nil => rfl
  | cons y rest ih =>
    have hy : p y = true := h y (List.mem_cons_self _ _)
    simp [List.dropWhile, hy, ih (fun x hx => h x (List.mem_cons_of_mem _ hx))]

/-- What is left starts with an element that fails `p`. -/
theorem dropWhile_head_of_exists (p : Char → Bool) (u : List Char)
    (h : ∃ x ∈ u, p x = false) :
    ∃ (y : Char) (rest : List Char), u.dropWhile p = y :: rest ∧ p y = false := by
  induction u with
  | nil => obtain ⟨x, hx, _⟩ := h; cases hx
  | cons y rest ih =>
    by_cases hy : p y = true
    · have hrest : ∃ x ∈ rest, p x = false := by
        obtain ⟨x, hx, hpx⟩ := h
        rcases List.mem_cons.mp hx with e | e
        · rw [e, hy] at hpx; cases hpx
        · exact ⟨x, e, hpx⟩
      obtain ⟨z, r, hz, hpz⟩ := ih hrest
      exact ⟨z, r, by simp [List.dropWhile, hy, hz], hpz⟩
    · exact ⟨y, rest, by simp [List.dropWhile, hy], by simpa using hy⟩

/-- Trimming stops inside `l` when `l` has an element other than `c`. -/
theorem trimTrailing_append_of_exists (c : Char) (a l : List Char)
    (h : ∃ x ∈ l, x ≠ c) : trimTrailing c (a ++ l) = a ++ trimTrailing c l := by
  have h' : ∃ x ∈ l.reverse, (fun x => x == c) x = false := by
    obtain ⟨x, hx, hne⟩ := h
    exact ⟨x, List.mem_reverse.mpr hx, by simpa using hne⟩
  simp only [trimTrailing, List.reverse_append]
  rw [dropWhile_append_of_exists _ _ _ h', List.reverse_append, List.reverse_reverse]

/-- Trimming goes through `l` when `l` is made of `c` only. -/
theorem trimTrailing_append_of_all (c : Char) (a l : List Char)
    (h : ∀ x ∈ l, x = c) : trimTrailing c (a ++ l) = trimTrailing c a := by
  have h' : ∀ x ∈ l.reverse, (fun x => x == c) x = true := by
    intro x hx
    simpa using h x (List.mem_reverse.mp hx)
  simp only [trimTrailing, List.reverse_append]
  rw [dropWhile_append_of_all _ _ _ h']

/-- Trimming leaves a list that ends with an element other than `c` alone. -/
theorem trimTrailing_of_last_ne (c y : Char) (a : List Char) (h : y ≠ c) :
    trimTrailing c (a ++ [y]) = a ++ [y] := by
  rw [trimTrailing_append_of_exists c a [y] ⟨y, List.mem_singleton_self y, h⟩]
  simp [trimTrailing, h]

/-- What trimming leaves is a beginning of the list. -/
theorem trimTrailing_initial (c : Char) (l : List Char) : trimTrailing c l <+: l := by
  have h := List.dropWhile_suffix (l := l.reverse) (fun x => x == c)
  have h2 := List.reverse_prefix.mpr h
  simpa [trimTrailing] using h2

/-- What trimming leaves is not empty when the list has an element other than
`c`, and it does not end with `c`. -/
theorem trimTrailing_last (c : Char) (l : List Char) (h : ∃ x ∈ l, x ≠ c) :
    ∃ (init : List Char) (y : Char), trimTrailing c l = init ++ [y] ∧ y ≠ c := by
  have h' : ∃ x ∈ l.reverse, (fun x => x == c) x = false := by
    obtain ⟨x, hx, hne⟩ := h
    exact ⟨x, List.mem_reverse.mpr hx, by simpa using hne⟩
  obtain ⟨y, rest, hy, hpy⟩ := dropWhile_head_of_exists _ _ h'
  refine ⟨rest.reverse, y, ?_, by simpa using hpy⟩
  simp [trimTrailing, hy]

/-- The scan keeps its accumulator over bytes other than `c`. -/
theorem lastIndexFrom_of_not_mem (c : Char) (s : List Char) (i : Nat) (acc : Int)
    (h : c ∉ s) : lastIndexFrom c s i acc = acc := by
  induction s generalizing i acc with
  | nil => rfl
  | cons x rest ih =>
    have hx : x ≠ c := fun e => h (e ▸ List.mem_cons_self _ _)
    have hr : c ∉ rest := fun m => h (List.mem_cons_of_mem _ m)
    simp only [lastIndexFrom, if_neg hx]
    exact ih _ _ hr

/-- The scan returns the position of the last `c`. -/
theorem lastIndexFrom_append (c : Char) (pre post : List Char) (i : Nat) (acc : Int)
    (h : c ∉ post) :
    lastIndexFrom c (pre ++ c :: post) i acc = ((i + pre.length : Nat) : Int) := by
  induction pre generalizing i acc with
  | nil =>
    simp only [List.nil_append, lastIndexFrom, if_true, List.length_nil, Nat.add_zero]
    exact lastIndexFrom_of_not_mem c post _ _ h
  | cons x rest ih =>
    have hstep : lastIndexFrom c ((x :: rest) ++ c :: post) i acc =
        lastIndexFrom c (rest ++ c :: post) (i + 1) (if x = c then (i : Int) else acc) := rfl
    rw [hstep, ih, List.length_cons]
    congr 1
    omega

/-- The rendering is the date and time, the fraction, and `Z`. -/
theorem formatRFC3339Nano_eq (t : Instant) :
    formatRFC3339Nano t = dateTime t ++ appendNano t.nanosecond ++ ['Z'] := rfl

/-- The date and time take 19 bytes, none of them a dot. -/
theorem dateTime_facts (t : Instant) (hwf : t.WellFormed) :
    (dateTime t).length = 19 ∧ '.' ∉ dateTime t := by
  obtain ⟨hy, _, hmo, _, hd, hh, hmi, hs, _⟩ := hwf
  have ey : appendInt t.year 4 = lowDigits 4 t.year := if_pos (by omega)
  have emo : appendInt t.month 2 = lowDigits 2 t.month := if_pos (by omega)
  have ed : appendInt t.day 2 = lowDigits 2 t.day := if_pos (by omega)
  have eh : appendInt t.hour 2 = lowDigits 2 t.hour := if_pos (by omega)
  have emi : appendInt t.minute 2 = lowDigits 2 t.minute := if_pos (by omega)
  have es : appendInt t.second 2 = lowDigits 2 t.second := if_pos (by omega)
  unfold dateTime
  rw [ey, emo, ed, eh, emi, es]
  refine ⟨by simp [length_lowDigits], ?_⟩
  simp only [List.mem_append, List.mem_singleton, not_or]
  refine ⟨⟨⟨⟨⟨⟨⟨⟨⟨⟨?_, ?_⟩, ?_⟩, ?_⟩, ?_⟩, ?_⟩, ?_⟩, ?_⟩, ?_⟩, ?_⟩, ?_⟩
  all_goals first
    | exact dot_not_mem_lowDigits _ _
    | decide

/-- The fraction of a non-zero nanosecond field below `10 ^ 9`: the dot, then
the nine digits without their trailing zeros. -/
theorem appendNano_pos (ns : Nat) (h0 : ns ≠ 0) (hlt : ns < 10 ^ 9) :
    appendNano ns = '.' :: trimTrailing '0' (lowDigits 9 ns) ∧
    '.' ∉ trimTrailing '0' (lowDigits 9 ns) := by
  have hex : ∃ x ∈ lowDigits 9 ns, x ≠ '0' := by
    by_contra hcon
    have hall : ∀ c ∈ lowDigits 9 ns, c = '0' := by
      intro c hc
      by_contra hne
      exact hcon ⟨c, hc, hne⟩
    have := (lowDigits_all_zero 9 ns).mp hall
    rw [Nat.mod_eq_of_lt hlt] at this
    exact h0 this
  have hdot : '.' ∉ trimTrailing '0' (lowDigits 9 ns) :=
    fun hm => dot_not_mem_lowDigits 9 ns ((trimTrailing_initial '0' _).subset hm)
  refine ⟨?_, hdot⟩
  obtain ⟨init, y, hy, _⟩ := trimTrailing_last '0' _ hex
  have hy' : y ≠ '.' := by
    intro e
    apply hdot
    rw [hy, e]
    simp
  have happ : appendInt ns 9 = lowDigits 9 ns := if_pos hlt
  have htrim : trimTrailing '0' ('.' :: lowDigits 9 ns) =
      '.' :: trimTrailing '0' (lowDigits 9 ns) :=
    trimTrailing_append_of_exists '0' ['.'] _ hex
  have hlast : ('.' :: trimTrailing '0' (lowDigits 9 ns)).getLast? ≠ some '.' := by
    rw [hy]
    have : ('.' :: (init ++ [y])) = ('.' :: init) ++ [y] := rfl
    rw [this, List.getLast?_append]
    simpa using hy'
  unfold appendNano
  rw [if_neg h0, happ]
  simp only [htrim, if_neg hlast]

/-- When the rendering has at least three digits after its only dot, the
stamp is the rendering cut after the third, closed with `Z`. -/
theorem printLineStamp_cut (t : Instant) (hwf : t.WellFormed) (front back : List Char)
    (hnow : formatRFC3339Nano t = dateTime t ++ ('.' :: (front ++ back)))
    (hfront : front.length = 3) (hdot : '.' ∉ front ++ back) :
    printLineStamp t = .ok (dateTime t ++ ('.' :: front) ++ ['Z']) := by
  obtain ⟨hlen, _⟩ := dateTime_facts t hwf
  have hli : lastIndex (formatRFC3339Nano t) '.' = 19 := by
    rw [hnow, lastIndex, lastIndexFrom_append _ _ _ _ _ hdot, hlen]
    rfl
  have hsplit : formatRFC3339Nano t = (dateTime t ++ ('.' :: front)) ++ back := by
    rw [hnow]; simp
  have hlen2 : (dateTime t ++ ('.' :: front)).length = 23 := by
    simp [hlen, hfront]
  have hslice : sliceTo (formatRFC3339Nano t) (19 + 4) = .ok (dateTime t ++ ('.' :: front)) := by
    unfold sliceTo
    have hcond : (0 : Int) ≤ 19 + 4 ∧ (19 + 4 : Int) ≤ ((formatRFC3339Nano t).length : Int) := by
      have hl : (formatRFC3339Nano t).length = 23 + back.length := by
        rw [hsplit, List.length_append, hlen2]
      rw [hl]
      omega
    rw [if_pos hcond]
    have htn : ((19 : Int) + 4).toNat = 23 := by decide
    rw [htn, hsplit, List.take_left' hlen2]
  unfold printLineStamp
  simp only [hli]
  rw [if_pos (by decide), hslice]
  rfl

/-- When the rendering has fewer than three bytes after its only dot, the
slice bound is out of range. -/
theorem printLineStamp_short (t : Instant) (hwf : t.WellFormed) (tail : List Char)
    (hnow : formatRFC3339Nano t = dateTime t ++ ('.' :: tail))
    (hlen : tail.length < 3) (hdot : '.' ∉ tail) :
    printLineStamp t = .error (.panic (.sliceBounds 23 (20 + tail.length))) := by
  obtain ⟨hlen19, _⟩ := dateTime_facts t hwf
  have hli : lastIndex (formatRFC3339Nano t) '.' = 19 := by
    rw [hnow, lastIndex, lastIndexFrom_append _ _ _ _ _ hdot, hlen19]
    rfl
  have hlength : (formatRFC3339Nano t).length = 20 + tail.length := by
    rw [hnow]; simp [hlen19]; omega
  have hslice : sliceTo (formatRFC3339Nano t) (19 + 4) =
      .error (.panic (.sliceBounds 23 (20 + tail.length))) := by
    unfold sliceTo
    have hcond : ¬ ((0 : Int) ≤ 19 + 4 ∧ (19 + 4 : Int) ≤ ((formatRFC3339Nano t).length : Int)) := by
      rw [hlength]
      push_cast
      omega
    rw [if_neg hcond, hlength]
    rfl
  unfold printLineStamp
  simp only [hli]
  rw [if_pos (by decide), hslice]
  rfl

/-- The line of `printLine`, from its stamp. -/
theorem printLine_of_stamp {t : Instant} {stamp : List Char} (pfx m : String)
    (h : printLineStamp t = .ok stamp) :
    printLine t pfx m = .ok ("[" ++ pfx ++ " " ++ String.mk stamp ++ "] " ++ m ++ "\n") := by
  rw [printLine, h]
  rfl

/-- For every well-formed instant whose nanosecond field is not a multiple of
`10 ^ 7` (the rendering then has at least three fraction digits), `printLine`
writes the line with the millisecond form of the timestamp: date and time, a
dot, the three digits of the truncated milliseconds, and one `Z`. -/
theorem printLine_millisecond_form (t : Instant) (hwf : t.WellFormed)
    (hns : t.nanosecond % 10 ^ 7 ≠ 0) (pfx m : String) :
    printLine t pfx m = .ok ("[" ++ pfx ++ " " ++
      String.mk (dateTime t ++ ('.' :: lowDigits 3 (t.nanosecond / 1000000)) ++ ['Z']) ++
      "] " ++ m ++ "\n") := by
  have hlt : t.nanosecond < 10 ^ 9 := hwf.2.2.2.2.2.2.2.2
  have h0 : t.nanosecond ≠ 0 := by
    intro e
    rw [e] at hns
    exact hns rfl
  obtain ⟨hnano, hdotR⟩ := appendNano_pos t.nanosecond h0 hlt
  have hex7 : ∃ x ∈ lowDigits 7 t.nanosecond, x ≠ '0' := by
    by_contra hcon
    have hall : ∀ c ∈ lowDigits 7 t.nanosecond, c = '0' := by
      intro c hc
      by_contra hne
      exact hcon ⟨c, hc, hne⟩
    exact hns ((lowDigits_all_zero 7 t.nanosecond).mp hall)
  have hD : lowDigits 9 t.nanosecond =
      lowDigits 2 (t.nanosecond / 10 ^ 7) ++ lowDigits 7 t.nanosecond :=
    lowDigits_add 2 7 t.nanosecond
  have h7 : lowDigits 7 t.nanosecond =
      Nat.digitChar (t.nanosecond / 10 ^ 6 % 10) :: lowDigits 6 t.nanosecond := by
    have := lowDigits_add 1 6 t.nanosecond
    simpa [lowDigits] using this
  obtain ⟨init, y, hy, _⟩ := trimTrailing_last '0' _ hex7
  obtain ⟨rest, hrest⟩ : ∃ rest : List Char, trimTrailing '0' (lowDigits 7 t.nanosecond) =
      Nat.digitChar (t.nanosecond / 10 ^ 6 % 10) :: rest := by
    obtain ⟨sfx, hsfx⟩ := trimTrailing_initial '0' (lowDigits 7 t.nanosecond)
    cases hR : trimTrailing '0' (lowDigits 7 t.nanosecond) with
    | nil =>
      rw [hR] at hy
      exact absurd hy (by simp)
    | cons a r =>
      rw [hR, h7] at hsfx
      have := (List.cons.inj hsfx).1
      exact ⟨r, by rw [this]⟩
  have hR : trimTrailing '0' (lowDigits 9 t.nanosecond) =
      lowDigits 3 (t.nanosecond / 1000000) ++ rest := by
    rw [hD, trimTrailing_append_of_exists '0' _ _ hex7, hrest]
    have h3 : lowDigits 3 (t.nanosecond / 1000000) =
        lowDigits 2 (t.nanosecond / 10 ^ 7) ++
          [Nat.digitChar (t.nanosecond / 10 ^ 6 % 10)] := by
      have e1 : t.nanosecond / 1000000 / 10 = t.nanosecond / 10 ^ 7 := by
        rw [Nat.div_div_eq_div_mul]
        rfl
      have e2 : t.nanosecond / 1000000 = t.nanosecond / 10 ^ 6 := rfl
      rw [lowDigits, e1, e2]
    rw [h3]
    simp
  have hnow : formatRFC3339Nano t =
      dateTime t ++ ('.' :: (lowDigits 3 (t.nanosecond / 1000000) ++ (rest ++ ['Z']))) := by
    rw [formatRFC3339Nano_eq, hnano, hR]
    simp
  have hdot : '.' ∉ lowDigits 3 (t.nanosecond / 1000000) ++ (rest ++ ['Z']) := by
    rw [hR] at hdotR
    intro hm
    rcases List.mem_append.mp hm with h | h
    · exact hdotR (List.mem_append_left _ h)
    · rcases List.mem_append.mp h with h | h
      · exact hdotR (List.mem_append_right _ h)
      · exact absurd h (by decide)
  exact printLine_of_stamp pfx m
    (printLineStamp_cut t hwf _ _ hnow (length_lowDigits 3 _) hdot)

/-- The millisecond form at the clock reading `clockA`. -/
theorem printLine_millisecond_form_witness :
    printLine clockA "setup" "hello" = .ok ("[" ++ "setup" ++ " " ++
      String.mk (dateTime clockA ++ ('.' :: lowDigits 3 (clockA.nanosecond / 1000000)) ++ ['Z']) ++
      "] " ++ "hello" ++ "\n") :=
  printLine_millisecond_form clockA (by decide) (by decide) "setup" "hello"

/-- For every well-formed instant whose nanosecond field is a non-zero
multiple of `10 ^ 8` (the rendering then has one fraction digit), `printLine`
panics: the slice bound 23 exceeds the 22 bytes of the rendering. -/
theorem printLine_panics_on_one_digit (t : Instant) (hwf : t.WellFormed)
    (h0 : t.nanosecond ≠ 0) (h8 : t.nanosecond % 10 ^ 8 = 0) (pfx m : String) :
    printLine t pfx m = .error (.panic (.sliceBounds 23 22)) := by
  have hlt : t.nanosecond < 10 ^ 9 := hwf.2.2.2.2.2.2.2.2
  obtain ⟨hnano, hdotR⟩ := appendNano_pos t.nanosecond h0 hlt
  have hD : lowDigits 9 t.nanosecond =
      lowDigits 1 (t.nanosecond / 10 ^ 8) ++ lowDigits 8 t.nanosecond :=
    lowDigits_add 1 8 t.nanosecond
  have hall : ∀ c ∈ lowDigits 8 t.nanosecond, c = '0' :=
    (lowDigits_all_zero 8 t.nanosecond).mpr h8
  have h1 : lowDigits 1 (t.nanosecond / 10 ^ 8) =
      [] ++ [Nat.digitChar (t.nanosecond / 10 ^ 8 % 10)] := by
    simp [lowDigits]
  have hd1 : Nat.digitChar (t.nanosecond / 10 ^ 8 % 10) ≠ '0' := by
    intro e
    have := (digitChar_facts _ (Nat.mod_lt _ (by decide))).2.mp e
    omega
  have hR : trimTrailing '0' (lowDigits 9 t.nanosecond) =
      [Nat.digitChar (t.nanosecond / 10 ^ 8 % 10)] := by
    rw [hD, trimTrailing_append_of_all '0' _ _ hall, h1, trimTrailing_of_last_ne '0' _ _ hd1]
    rfl
  have hnow : formatRFC3339Nano t =
      dateTime t ++ ('.' :: [Nat.digitChar (t.nanosecond / 10 ^ 8 % 10), 'Z']) := by
    rw [formatRFC3339Nano_eq, hnano, hR]
    simp
  have hdot : '.' ∉ [Nat.digitChar (t.nanosecond / 10 ^ 8 % 10), 'Z'] := by
    rw [hR] at hdotR
    intro hm
    rcases List.mem_cons.mp hm with h | h
    · exact hdotR (by rw [← h]; simp)
    · exact absurd h (by decide)
  have hstamp := printLineStamp_short t hwf _ hnow (by simp) hdot
  rw [printLine, hstamp]
  rfl

/-- The panic at the clock reading `clockOneDigit`. -/
theorem printLine_panics_on_one_digit_witness :
    printLine clockOneDigit "setup" "hello" = .error (.panic (.sliceBounds 23 22)) :=
  printLine_panics_on_one_digit clockOneDigit (by decide) (by decide) (by decide)
    "setup" "hello"

/-- For every well-formed instant on a whole second, the rendering has no
dot and `printLine` writes the line with no fraction in its timestamp. -/
theorem printLine_whole_second (t : Instant) (hwf : t.WellFormed)
    (h0 : t.nanosecond = 0) (pfx m : String) :
    printLine t pfx m = .ok ("[" ++ pfx ++ " " ++ String.mk (dateTime t ++ ['Z']) ++
      "] " ++ m ++ "\n") := by
  obtain ⟨_, hnodot⟩ := dateTime_facts t hwf
  have hnano : appendNano t.nanosecond = [] := by
    rw [h0]; rfl
  have hnow : formatRFC3339Nano t = dateTime t ++ ['Z'] := by
    rw [formatRFC3339Nano_eq, hnano, List.append_nil]
  have hli : lastIndex (formatRFC3339Nano t) '.' = -1 := by
    rw [hnow, lastIndex]
    apply lastIndexFrom_of_not_mem
    intro hm
    rcases List.mem_append.mp hm with h | h
    · exact hnodot h
    · exact absurd h (by decide)
  have hstamp : printLineStamp t = .ok (dateTime t ++ ['Z']) := by
    unfold printLineStamp
    simp only [hli]
    rw [if_neg (by decide), hnow]
    rfl
  exact printLine_of_stamp pfx m hstamp

/-- The line on a whole second at the clock reading `clockWholeSecond`. -/
theorem printLine_whole_second_witness :
    printLine clockWholeSecond "setup" "hello" = .ok ("[" ++ "setup" ++ " " ++
      String.mk (dateTime clockWholeSecond ++ ['Z']) ++ "] " ++ "hello" ++ "\n") :=
  printLine_whole_second clockWholeSecond (by decide) (by decide) "setup" "hello"

/-- For every well-formed instant whose nanosecond field is a multiple of
`10 ^ 7` but not of `10 ^ 8` (the rendering then has two fraction digits),
`printLine` writes a timestamp with those two digits followed by `ZZ`. -/
theorem printLine_two_digits (t : Instant) (hwf : t.WellFormed)
    (h7 : t.nanosecond % 10 ^ 7 = 0) (h8 : t.nanosecond % 10 ^ 8 ≠ 0) (pfx m : String) :
    printLine t pfx m = .ok ("[" ++ pfx ++ " " ++
      String.mk (dateTime t ++ ('.' :: lowDigits 2 (t.nanosecond / 10000000)) ++ ['Z', 'Z']) ++
      "] " ++ m ++ "\n") := by
  have hlt : t.nanosecond < 10 ^ 9 := hwf.2.2.2.2.2.2.2.2
  have h0 : t.nanosecond ≠ 0 := by
    intro e
    rw [e] at h8
    exact h8 rfl
  obtain ⟨hnano, hdotR⟩ := appendNano_pos t.nanosecond h0 hlt
  have hD : lowDigits 9 t.nanosecond =
      lowDigits 2 (t.nanosecond / 10 ^ 7) ++ lowDigits 7 t.nanosecond :=
    lowDigits_add 2 7 t.nanosecond
  have hall : ∀ c ∈ lowDigits 7 t.nanosecond, c = '0' :=
    (lowDigits_all_zero 7 t.nanosecond).mpr h7
  have h2 : lowDigits 2 (t.nanosecond / 10 ^ 7) =
      lowDigits 1 (t.nanosecond / 10 ^ 7 / 10) ++
        [Nat.digitChar (t.nanosecond / 10 ^ 7 % 10)] := rfl
  have hd2 : Nat.digitChar (t.nanosecond / 10 ^ 7 % 10) ≠ '0' := by
    intro e
    have := (digitChar_facts _ (Nat.mod_lt _ (by decide))).2.mp e
    omega
  have hR : trimTrailing '0' (lowDigits 9 t.nanosecond) =
      lowDigits 2 (t.nanosecond / 10000000) := by
    rw [hD, trimTrailing_append_of_all '0' _ _ hall, h2,
      trimTrailing_of_last_ne '0' _ _ hd2]
    rfl
  have hnow : formatRFC3339Nano t =
      dateTime t ++ ('.' :: ((lowDigits 2 (t.nanosecond / 10000000) ++ ['Z']) ++ [])) := by
    rw [formatRFC3339Nano_eq, hnano, hR]
    simp
  have hdot : '.' ∉ (lowDigits 2 (t.nanosecond / 10000000) ++ ['Z']) ++ [] := by
    rw [hR] at hdotR
    intro hm
    rw [List.append_nil] at hm
    rcases List.mem_append.mp hm with h | h
    · exact hdotR h
    · exact absurd h (by decide)
  have hstamp := printLineStamp_cut t hwf _ _ hnow (by simp [length_lowDigits]) hdot
  have hline := printLine_of_stamp pfx m hstamp
  rw [hline]
  simp

/-- The doubled `Z` at the clock reading `clockTwoDigits`. -/
theorem printLine_two_digits_witness :
    printLine clockTwoDigits "setup" "hello" = .ok ("[" ++ "setup" ++ " " ++
      String.mk (dateTime clockTwoDigits ++
        ('.' :: lowDigits 2 (clockTwoDigits.nanosecond / 10000000)) ++ ['Z', 'Z']) ++
      "] " ++ "hello" ++ "\n") :=
  printLine_two_digits clockTwoDigits (by decide) (by decide) (by decide) "setup" "hello"

end RunTask
